import Mathlib

/-!
Verification of the scheduling/booking core of `app.py` (a salon
receptionist application).  The Python functions that the claims concern
are shallowly embedded below.  Python strings are modelled as `List Char`
(`Str`) and every Python string operation used by the source is given an
explicit executable model.  Exceptions are modelled with `Option`:
a function returns `none` exactly when the corresponding Python code
raises an exception that the source does not catch; exceptions that the
source catches (`try ... except: continue / pass`) are folded into the
branch the handler takes, mirroring the source flow.
-/

abbrev Str := List Char

/-- Python `str.isspace` for the characters relevant here (ASCII whitespace). -/
def pyIsSpace (c : Char) : Bool :=
  c.toNat = 32 || c.toNat = 9 || c.toNat = 10 || c.toNat = 13 || c.toNat = 11 || c.toNat = 12

/-- ASCII decimal digit test: models Python `str.isdigit` character-wise
(the source only meets ASCII input). -/
def isDigitChar (c : Char) : Bool :=
  48 ≤ c.toNat && c.toNat ≤ 57

/-- Python `str.isdigit`: nonempty and all digits. -/
def pyIsDigits (s : Str) : Bool :=
  !s.isEmpty && s.all isDigitChar

/-- Python `str.strip()` (no argument): drop whitespace at both ends. -/
def pyTrim (s : Str) : Str :=
  ((s.dropWhile pyIsSpace).reverse.dropWhile pyIsSpace).reverse

/-- Python `str.lower()` (ASCII case folding suffices for this source). -/
def pyLower (s : Str) : Str :=
  s.map Char.toLower

/-- Python `str.capitalize()`: first character uppercased, rest lowered. -/
def pyCapitalize (s : Str) : Str :=
  match s with
  | [] => []
  | c :: rest => c.toUpper :: pyLower rest

/-- Python `pat in s` (contiguous substring containment) for nonempty `pat`. -/
def strContains (s pat : Str) : Bool :=
  match s with
  | [] => pat.isEmpty
  | _ :: rest => pat.isPrefixOf s || strContains rest pat

/-- Recursion core of `pyReplace`; the fuel only bounds the recursion depth
(each step consumes at least one character, so `s.length + 1` always
suffices) and keeps the definition structural, hence kernel-reducible. -/
def pyReplaceF : Nat → Str → Str → Str → Str
  | 0, s, _, _ => s
  | fuel + 1, s, pat, rep =>
    match s with
    | [] => []
    | c :: rest =>
      if pat ≠ [] ∧ pat.isPrefixOf (c :: rest) then
        rep ++ pyReplaceF fuel ((c :: rest).drop pat.length) pat rep
      else
        c :: pyReplaceF fuel rest pat rep

/-- Python `s.replace(pat, rep)` for nonempty `pat`: replace every
non-overlapping occurrence left to right. -/
def pyReplace (s pat rep : Str) : Str :=
  pyReplaceF (s.length + 1) s pat rep

/-- Python `s.split(sep)` for a one-character separator: split at every
occurrence, keeping empty pieces (`"a--b".split("-") == ["a","","b"]`). -/
def pySplit (sep : Char) (s : Str) : List Str :=
  match s with
  | [] => [[]]
  | c :: rest =>
    let r := pySplit sep rest
    if c = sep then [] :: r
    else
      match r with
      | [] => [[c]]
      | p :: ps => (c :: p) :: ps

/-- Python `s.split()` (no argument): whitespace-separated words, runs of
whitespace collapsed, no empty words. -/
def pyWords (s : Str) : List Str :=
  match s with
  | [] => []
  | c :: rest =>
    let r := pyWords rest
    if pyIsSpace c then r
    else
      match rest with
      | [] => [[c]]
      | c' :: _ =>
        if pyIsSpace c' then [c] :: r
        else
          match r with
          | [] => [[c]]
          | w :: ws => (c :: w) :: ws

/-- Python `s.endswith(pat)`. -/
def strEndsWith (s pat : Str) : Bool :=
  List.isPrefixOf pat.reverse s.reverse

def charDigit (c : Char) : Nat := c.toNat - 48

/-- Numeric value of a big-endian digit string (what Python `int` computes
on an all-digit string, leading zeros allowed). -/
def natVal (s : Str) : Nat :=
  s.foldl (fun a c => 10 * a + charDigit c) 0

/-- Model of Python `int(s)` as used by the source.  All call sites feed it
time/date components that are digit strings (possibly with surrounding
whitespace, which `int` tolerates); signed or underscore-grouped literals
never reach these call sites with a meaningful value (they are either
impossible — the `-` separator is consumed by `split("-")` first — or are
rejected by the validation that follows), so they are modelled as failures. -/
def pyIntNat (s : Str) : Option Nat :=
  let t := pyTrim s
  if pyIsDigits t then some (natVal t) else none

def digitChar (d : Nat) : Char := Char.ofNat (48 + d)

/-- Recursion core of `natToChars` with explicit fuel (any `fuel > n`
suffices, since the argument strictly decreases); fuel keeps the definition
structural, hence kernel-reducible. -/
def natToCharsF : Nat → Nat → Str
  | 0, _ => []
  | fuel + 1, n =>
    if n < 10 then [digitChar n]
    else natToCharsF fuel (n / 10) ++ [digitChar (n % 10)]

/-- Decimal digits of `n`, big-endian, as Python `str(n)` / `"%d" % n`. -/
def natToChars (n : Nat) : Str :=
  natToCharsF (n + 1) n

/-- Python `f"{n:02d}"`: decimal digits zero-padded to width two. -/
def fmt2 (n : Nat) : Str :=
  let l := natToChars n
  List.replicate (2 - l.length) '0' ++ l

/-- Python `f"{n:04d}"` (used by `strftime("%Y...")`). -/
def fmt4 (n : Nat) : Str :=
  let l := natToChars n
  List.replicate (4 - l.length) '0' ++ l

/-! ## Time helpers (`_time_to_minutes`, `_minutes_to_time`, ranges) -/

/-- `_time_to_minutes(hhmm)`: `h, m = hhmm.split(":"); return int(h)*60 + int(m)`.
`none` models the `ValueError` the Python code raises on malformed input. -/
def _time_to_minutes (s : Str) : Option Nat :=
  match pySplit ':' s with
  | [a, b] =>
    match pyIntNat a, pyIntNat b with
    | some h, some m => some (h * 60 + m)
    | _, _ => none
  | _ => none

/-- `_minutes_to_time(m)`: `f"{m//60:02d}:{m%60:02d}"`. -/
def _minutes_to_time (m : Nat) : Str :=
  fmt2 (m / 60) ++ ':' :: fmt2 (m % 60)

/-- Parse an interval string `"HH:MM-HH:MM"` the way the source does inline
(`rs, re = r.split("-")` then `_time_to_minutes` on each part, all inside
one `try`). -/
def parseRange (r : Str) : Option (Nat × Nat) :=
  match pySplit '-' r with
  | [a, b] =>
    match _time_to_minutes a, _time_to_minutes b with
    | some x, some y => some (x, y)
    | _, _ => none
  | _ => none

/-- The half-open overlap test used verbatim by `_subtract_appointments`
and `_append_appointment`: `start < re_m and end > rs_m`. -/
def pyOverlap (s e rs re : Nat) : Bool :=
  s < re && e > rs

/-! ## Date model

Python `datetime` values are modelled by their proleptic-Gregorian ordinal
(`datetime.date.toordinal`, with `0001-01-01 = 1`) plus the wall-clock hour
and minute; the source never reads seconds or microseconds after the
zeroing `replace(...)` calls, so they are omitted. -/

structure PyDateTime where
  od : Nat
  hour : Nat := 0
  minute : Nat := 0
deriving DecidableEq, Repr

/-- `datetime.weekday()`: Monday = 0.  Ordinal 1 (`0001-01-01`) is a Monday,
so the weekday is `(od - 1) % 7`; written `(od + 6) % 7` to be total on `Nat`
(every real ordinal is ≥ 1, where the two forms agree). -/
def pyWeekday (od : Nat) : Nat := (od + 6) % 7

/-- `dt + timedelta(days = n)` (the source only ever adds non-negative days). -/
def addDays (d : PyDateTime) (n : Nat) : PyDateTime := { d with od := d.od + n }

/-- `.replace(hour=0, minute=0, second=0, microsecond=0)`. -/
def midnight (d : PyDateTime) : PyDateTime := { d with hour := 0, minute := 0 }

def isLeap (y : Nat) : Bool := y % 4 = 0 && (y % 100 ≠ 0 || y % 400 = 0)

def daysInMonth (y m : Nat) : Nat :=
  if m = 2 then (if isLeap y then 29 else 28)
  else if m = 4 || m = 6 || m = 9 || m = 11 then 30
  else 31

/-- Proleptic-Gregorian ordinal of `(y, m, d)` (valid for `y ≥ 1`), matching
Python `datetime.date(y, m, d).toordinal()`. -/
def dateToOrdinal (y m d : Nat) : Nat :=
  let y' := if m ≤ 2 then y - 1 else y
  let era := y' / 400
  let yoe := y' % 400
  let mp := if m > 2 then m - 3 else m + 9
  let doy := (153 * mp + 2) / 5 + d - 1
  let doe := yoe * 365 + yoe / 4 - yoe / 100 + doy
  era * 146097 + doe - 305

/-- Inverse of `dateToOrdinal`: the `(y, m, d)` of an ordinal (valid `od ≥ 1`). -/
def ordinalToDate (od : Nat) : Nat × Nat × Nat :=
  let z := od + 305
  let era := z / 146097
  let doe := z % 146097
  let yoe := (doe - doe / 1460 + doe / 36524 - doe / 146096) / 365
  let y := yoe + era * 400
  let doy := doe - (365 * yoe + yoe / 4 - yoe / 100)
  let mp := (5 * doy + 2) / 153
  let d := doy - (153 * mp + 2) / 5 + 1
  let m := if mp < 10 then mp + 3 else mp - 9
  (if m ≤ 2 then y + 1 else y, m, d)

/-- `dt.strftime("%Y-%m-%d")`. -/
def strftime10 (dt : PyDateTime) : Str :=
  let ymd := ordinalToDate dt.od
  fmt4 ymd.1 ++ '-' :: fmt2 ymd.2.1 ++ '-' :: fmt2 ymd.2.2

/-- `dt.strftime("%H:%M")`. -/
def strftime5 (dt : PyDateTime) : Str :=
  fmt2 dt.hour ++ ':' :: fmt2 dt.minute

/-- `datetime.replace(year=y, month=m, day=d, hour=0, ...)`: `none` models the
`ValueError` raised for an out-of-range component (Python accepts
`1 ≤ y ≤ 9999`, `1 ≤ m ≤ 12`, `1 ≤ d ≤ daysInMonth`). -/
def mkDate (y m d : Nat) : Option PyDateTime :=
  if 1 ≤ y ∧ y ≤ 9999 ∧ 1 ≤ m ∧ m ≤ 12 ∧ 1 ≤ d ∧ d ≤ daysInMonth y m then
    some { od := dateToOrdinal y m d, hour := 0, minute := 0 }
  else none

def WEEKDAY_NAMES : List Str :=
  ["Mon".toList, "Tue".toList, "Wed".toList, "Thu".toList,
   "Fri".toList, "Sat".toList, "Sun".toList]

def DAYPARTS : List (Str × (Str × Str)) :=
  [("morning".toList, ("00:00".toList, "11:59".toList)),
   ("afternoon".toList, ("12:00".toList, "16:59".toList)),
   ("evening".toList, ("17:00".toList, "20:59".toList)),
   ("night".toList, ("21:00".toList, "23:59".toList))]

/-- `extract_daypart(s)`: lower/strip, then scan `DAYPARTS` in insertion
order; on a hit, remove every occurrence of the keyword and strip again. -/
def extract_daypart (s : Str) : Str × Option (Str × Str) :=
  let s' := pyLower (pyTrim s)
  match DAYPARTS.find? (fun kv => strContains s' kv.1) with
  | some kv => (pyTrim (pyReplace s' kv.1 []), some kv.2)
  | none => (s', none)

/-! ## `parse_natural_date` -/

/-- ISO branch: `len(s) == 10 and s[4] == "-" and s[7] == "-"` guard, then
`y, m, d = s.split("-")`, `int` each, `anchor.replace(...)`; every failure
falls through (`except: pass`). -/
def tryISO (s : Str) : Option PyDateTime :=
  if s.length = 10 ∧ s.getD 4 ' ' = '-' ∧ s.getD 7 ' ' = '-' then
    match pySplit '-' s with
    | [ys, ms, ds] =>
      match pyIntNat ys, pyIntNat ms, pyIntNat ds with
      | some y, some m, some d => mkDate y m d
      | _, _, _ => none
    | _ => none
  else none

/-- MM/DD branch: `"/" in s` guard, then `m, d = s.split("/")`, year from
the anchor. -/
def tryMMDD (s : Str) (anchor : PyDateTime) : Option PyDateTime :=
  if s.contains '/' then
    match pySplit '/' s with
    | [ms, ds] =>
      match pyIntNat ms, pyIntNat ds with
      | some m, some d => mkDate (ordinalToDate anchor.od).1 m d
      | _, _ => none
    | _ => none
  else none

/-- `"today"` / `"tomorrow"` literal branches. -/
def tryTodayTomorrow (s : Str) (anchor : PyDateTime) : Option PyDateTime :=
  if s = "today".toList ∨ s = "todays".toList ∨ s = "to day".toList then
    some (midnight anchor)
  else if s = "tomorrow".toList ∨ s = "tmrw".toList ∨ s = "tmr".toList then
    some (midnight (addDays anchor 1))
  else none

/-- `_weekday_index(name)`: `name[:3].capitalize()` looked up in
`WEEKDAY_NAMES`. -/
def _weekday_index (name : Str) : Option Nat :=
  WEEKDAY_NAMES.findIdx? (fun w => w = pyCapitalize (name.take 3))
    |>.bind (fun i => if i < 7 then some i else none)

/-- Bare weekday branch: one token, distance `(idx - weekday) % 7`
(0 means today). -/
def tryWeekday (s : Str) (anchor : PyDateTime) : Option PyDateTime :=
  match pyWords s with
  | [t] =>
    match _weekday_index t with
    | some idx =>
      some (midnight (addDays anchor
        ((((idx : Int) - (pyWeekday anchor.od : Int)) % 7).toNat)))
    | none => none
  | _ => none

/-- `"next " + weekday` branch: distance `((idx - weekday) % 7) or 7`. -/
def tryNextWeekday (s : Str) (anchor : PyDateTime) : Option PyDateTime :=
  match pyWords s with
  | [t0, t1] =>
    if t0 = "next".toList then
      match _weekday_index t1 with
      | some idx =>
        let d0 : Int := ((idx : Int) - (pyWeekday anchor.od : Int)) % 7
        some (midnight (addDays anchor (if d0 = 0 then 7 else d0).toNat))
      | none => none
    else none
  | _ => none

/-- `parse_natural_date(phrase, anchor)`: strip/lower, reject empty, then
try the recognized forms in source order, every failed branch falling
through to the next. -/
def parse_natural_date (phrase : Str) (anchor : PyDateTime) : Option PyDateTime :=
  let s := pyLower (pyTrim phrase)
  if s = [] then none
  else
    tryISO s <|> tryMMDD s anchor <|> tryTodayTomorrow s anchor <|>
      tryWeekday s anchor <|> tryNextWeekday s anchor

/-! ## `_normalize_time_to_hhmm` -/

/-- The tail of `_normalize_time_to_hhmm`: apply the am/pm rule
(`12am → 0`; `pm` adds 12 unless the hour is 12) to the parsed pair, then
range-check and zero-pad. -/
def normalizeFinish (ampm : Option Str) (hm : Option (Nat × Nat)) : Option Str :=
  match hm with
  | none => none
  | some (h, m) =>
    let h' :=
      match ampm with
      | some a => if a = "am".toList then (if h = 12 then 0 else h)
                  else (if h ≠ 12 then h + 12 else h)
      | none => h
    if h' ≤ 23 ∧ m ≤ 59 then some (fmt2 h' ++ ':' :: fmt2 m) else none

/-- `_normalize_time_to_hhmm(s)`: strip/lower, `.`→`:`, drop spaces, peel a
trailing `am`/`pm`, read bare-hour or `H:MM`, apply the am/pm rule, then
range-check and zero-pad. -/
def _normalize_time_to_hhmm (s : Str) : Option Str :=
  if s = [] then none
  else
    let t0 := pyReplace (pyReplace (pyLower (pyTrim s)) ".".toList ":".toList) " ".toList []
    let ampm : Option Str :=
      if strEndsWith t0 "am".toList then some "am".toList
      else if strEndsWith t0 "pm".toList then some "pm".toList
      else none
    let t := if ampm.isSome then t0.take (t0.length - 2) else t0
    let hm : Option (Nat × Nat) :=
      if pyIsDigits t then some (natVal t, 0)
      else if t.contains ':' then
        match pySplit ':' t with
        | [p0, p1] =>
          if pyIsDigits p0 && pyIsDigits p1 then some (natVal p0, natVal p1) else none
        | _ => none
      else none
    normalizeFinish ampm hm

/-! ## Slot generation and conflict filtering -/

/-- The `while t + service_min <= end: slots.append(...); t += slot_interval`
loop of `_expand_ranges_to_slots`, with explicit fuel.  With a positive step
the loop runs at most `e + 1` times starting from any `t`, so the fuel
`e + 1` used below never cuts it short (`emitLoop_eq` makes this exact). -/
def emitLoop : Nat → Nat → Nat → Nat → Nat → List Str
  | 0, _, _, _, _ => []
  | fuel + 1, t, e, serv, step =>
    if t + serv ≤ e then _minutes_to_time t :: emitLoop fuel (t + step) e serv step
    else []

/-- `_expand_ranges_to_slots(ranges, slot_interval, service_min)`: for each
range that parses, emit candidates from its start every `step` minutes while
`candidate + service_min <= end`; malformed ranges are skipped
(`except: continue`). -/
def _expand_ranges_to_slots (ranges : List Str) (step serv : Nat) : List Str :=
  (ranges.map (fun r =>
    match parseRange r with
    | some (s, e) => emitLoop (e + 1) s e serv step
    | none => [])).flatten

/-- The conflict test of `_subtract_appointments` for one slot value against
the taken ranges (malformed taken ranges are skipped, `except: continue`). -/
def slotConflicts (taken : List Str) (start serv : Nat) : Bool :=
  taken.any (fun r =>
    match parseRange r with
    | some (rs, re) => pyOverlap start (start + serv) rs re
    | none => false)

/-- `_subtract_appointments(slots, taken_ranges, service_min)`: keep the
slots that conflict with no parseable taken range.  The slot's own parse is
not guarded in the source, so an unparseable slot raises: `none`. -/
def _subtract_appointments (slots taken : List Str) (serv : Nat) : Option (List Str) :=
  match slots with
  | [] => some []
  | s :: rest =>
    match _time_to_minutes s with
    | none => none
    | some start =>
      (_subtract_appointments rest taken serv).map
        (fun keep => if slotConflicts taken start serv then keep else s :: keep)

/-- A Python list comprehension `[s for s in slots if p(_time_to_minutes(s))]`:
the per-element parse is unguarded, so a malformed slot raises (`none`). -/
def filterByTime (p : Nat → Bool) (slots : List Str) : Option (List Str) :=
  match slots with
  | [] => some []
  | s :: rest =>
    match _time_to_minutes s with
    | none => none
    | some v => (filterByTime p rest).map (fun ks => if p v then s :: ks else ks)

/-! ## Services and configuration -/

/-- One entry of `services.json`.  Durations are modelled as the integer
Python's `int(dur)` yields; a missing `duration` key takes the source's
default 30 at load, so it is represented directly as 30. -/
structure Service where
  name : Str
  duration : Nat
deriving DecidableEq, Repr

/-- `_get_service_minutes(name)`: first case-insensitive match on the
stripped, lowered query wins; no name or no match gives 30. -/
def _get_service_minutes (services : List Service) (name : Option Str) : Nat :=
  match name with
  | none => 30
  | some n =>
    match services.find? (fun s => pyLower s.name = pyLower (pyTrim n)) with
    | some s => s.duration
    | none => 30

/-- `working_hours.json`: `slot_interval_minutes` (already through `int`),
`weekly_hours` and `exceptions` as association lists (Python dicts have
unique keys; JSON nulls do not occur in the shapes the app itself writes). -/
structure WorkingConfig where
  slot_interval_minutes : Nat
  weekly_hours : List (Str × List Str)
  exceptions : List (Str × List Str)
deriving DecidableEq, Repr

/-- The read-only context of one tool invocation: configuration, service
catalog and the salon-timezone clock value `now_in_salon_tz()` (constant
within a call chain, which is how the claims are stated). -/
structure Env where
  working : WorkingConfig
  services : List Service
  now : PyDateTime
deriving DecidableEq, Repr

/-- `calendar.json`'s `"appointments"` mapping, date string → interval list. -/
abbrev Calendar := List (Str × List Str)

/-- `_get_taken_ranges_from_calendar(date_str)`: `appts.get(date_str, []) or []`. -/
def getTaken (cal : Calendar) (ds : Str) : List Str :=
  (List.lookup ds cal).getD []

/-- Replace (or create) a date's entry, as assignment into the Python dict. -/
def setCal (cal : Calendar) (k : Str) (v : List Str) : Calendar :=
  match cal with
  | [] => [(k, v)]
  | (k', v') :: rest => if k' = k then (k, v) :: rest else (k', v') :: setCal rest k v

/-! ## `_append_appointment` -/

/-- `_sort_key(rr)`: the start minutes of the interval, 0 on any parse
failure (`except: return 0`). -/
def sortKey (r : Str) : Nat :=
  match pySplit '-' r with
  | [a, _] => (_time_to_minutes a).getD 0
  | _ => 0

def sortKeyLE (a b : Str) : Prop := sortKey a ≤ sortKey b

instance : DecidableRel sortKeyLE := fun a b => Nat.decLe _ _

def msgInvalidStart : Str := "Invalid start time format. Use HH:MM.".toList

def msgRace : Str := "That time was just taken. Please pick another slot.".toList

def bookedMsg (ds s e : Str) : Str :=
  "Booked ".toList ++ ds ++ ' ' :: s ++ '-' :: e ++ ".".toList

/-- `_append_appointment(date_str, start_hhmm, duration_min, ...)`: validate
the start time, run the collision check against the stored ranges under the
half-open test, then append the new `"start-end"` string, deduplicate and
re-sort by start.  `sorted(list(set(...)), key=_sort_key)` is modelled as
`insertionSort` (stable, like Python's sort) after `dedup`; Python's `set`
iteration order is an implementation detail that only permutes key-ties,
which nothing downstream observes. -/
def _append_appointment (cal : Calendar) (date_str start_hhmm : Str)
    (duration_min : Nat) : (Bool × Str) × Calendar :=
  match _time_to_minutes start_hhmm with
  | none => ((false, msgInvalidStart), cal)
  | some start_m =>
    let end_m := start_m + duration_min
    let end_hhmm := _minutes_to_time end_m
    let taken := getTaken cal date_str
    if slotConflicts taken start_m duration_min then
      ((false, msgRace), cal)
    else
      let lst := getTaken cal date_str
      let new_range := start_hhmm ++ '-' :: end_hhmm
      let lst2 := if new_range ∈ lst then lst else lst ++ [new_range]
      let final := List.insertionSort sortKeyLE lst2.dedup
      ((true, bookedMsg date_str start_hhmm end_hhmm), setCal cal date_str final)

/-! ## `get_hours` -/

def msgParseErr : Str := "Could not parse date.".toList

/-- Result dict of `get_hours`.  `Option` fields model keys that some
return paths set to `None` (`closed` is `None` in the error dict). -/
structure GetHoursResult where
  error : Option Str := none
  date : Option Str := none
  weekday : Option Str := none
  ranges : List Str := []
  opening : Option Str := none
  closing : Option Str := none
  closed : Option Bool := none
deriving DecidableEq, Repr

/-- Ordering by `_time_to_minutes` value, the sort key of `get_hours`
(guarded below so the parse never actually fails where it is used). -/
def sortTimeLE (a b : Str) : Prop :=
  (_time_to_minutes a).getD 0 ≤ (_time_to_minutes b).getD 0

instance : DecidableRel sortTimeLE := fun a b => Nat.decLe _ _

/-- The `opening`/`closing` computation of `get_hours`: split each range,
strip the pieces, then take the earliest start and the latest end by
`_time_to_minutes`; any exception in the loop or in the sort key yields
`(None, None)`. -/
def openClose (ranges : List Str) : Option (Str × Str) :=
  (ranges.mapM (fun r =>
    match pySplit '-' r with
    | [a, b] => some (pyTrim a, pyTrim b)
    | _ => none)).bind (fun prs =>
      let starts := prs.map Prod.fst
      let ends := prs.map Prod.snd
      if starts.all (fun a => (_time_to_minutes a).isSome)
          && ends.all (fun a => (_time_to_minutes a).isSome) then
        match List.insertionSort sortTimeLE starts, (List.insertionSort sortTimeLE ends).getLast? with
        | a :: _, some b => some (a, b)
        | _, _ => none
      else none)

/-- `get_hours(date_phrase)`: parse the phrase (default `"today"`), then
`exceptions.get(date_str, weekly_hours.get(weekday, [])) or []`; empty
means closed. -/
def get_hours (env : Env) (date_phrase : Str) : GetHoursResult :=
  match parse_natural_date (if date_phrase = [] then "today".toList else date_phrase) env.now with
  | none => { error := some msgParseErr, date := none, closed := none }
  | some dt =>
    let ds := strftime10 dt
    let wd := WEEKDAY_NAMES.getD (pyWeekday dt.od) []
    let ranges := (List.lookup ds env.working.exceptions).getD
      ((List.lookup wd env.working.weekly_hours).getD [])
    if ranges = [] then
      { date := some ds, weekday := some wd, ranges := [], closed := some true }
    else
      let oc := openClose ranges
      { date := some ds, weekday := some wd, ranges := ranges,
        opening := oc.map Prod.fst, closing := oc.map Prod.snd, closed := some false }

/-! ## `check_availability` -/

/-- Result dict of `check_availability`.  The success dict carries no
`closed` key and the error/closed dicts no `total_available`; an absent
key and a `False`/`None` value are indistinguishable to the callers
(`avail.get(...)`), so absent boolean keys are modelled as the default. -/
structure CheckResult where
  error : Option Str := none
  date : Option Str := none
  weekday : Option Str := none
  service : Option Str := none
  duration_minutes : Option Nat := none
  available : List Str := []
  total_available : Option Nat := none
  closed : Bool := false
deriving DecidableEq, Repr

/-- Minutes of `now_in_salon_tz().strftime("%H:%M")` round-tripped through
`_time_to_minutes`, as the today-filter computes it (the round trip always
parses; see `tm_strftime5`). -/
def nowMinutes (env : Env) : Nat :=
  (_time_to_minutes (strftime5 env.now)).getD 0

/-- The daypart filter of `check_availability`:
`[s for s in free if tm(s) >= start_m and tm(s) + service <= end_m]`,
with the window bounds parsed first (as evaluation order has it). -/
def dpFilter (dp : Option (Str × Str)) (serv : Nat) (slots : List Str) : Option (List Str) :=
  match dp with
  | none => some slots
  | some (a, b) =>
    match _time_to_minutes a, _time_to_minutes b with
    | some sm, some em => filterByTime (fun v => decide (sm ≤ v) && decide (v + serv ≤ em)) slots
    | _, _ => none

/-- The phrase `check_availability` actually parses:
`parse_natural_date(cleaned_phrase or "today", ...)` on the
daypart-stripped input. -/
def cleanedPhrase (date_phrase : Str) : Str :=
  let cleaned := (extract_daypart date_phrase).1
  if cleaned = [] then "today".toList else cleaned

/-- The open ranges `check_availability` resolves for a parsed date:
the weekday's `weekly_hours` entry unless the ISO date is a key of
`exceptions`, which overrides it (even when empty). -/
def dayRanges (env : Env) (dt : PyDateTime) : List Str :=
  let ds := strftime10 dt
  let wd := WEEKDAY_NAMES.getD (pyWeekday dt.od) []
  if (List.lookup ds env.working.exceptions).isSome then
    (List.lookup ds env.working.exceptions).getD []
  else (List.lookup wd env.working.weekly_hours).getD []

/-- The free-slot pipeline of `check_availability` past the closed check:
expand the ranges, subtract booked conflicts, apply the daypart window,
then the today past-time filter. -/
def availFree (env : Env) (cal : Calendar) (dt : PyDateTime)
    (serv : Nat) (dp : Option (Str × Str)) : Option (List Str) :=
  let ds := strftime10 dt
  let all_slots := _expand_ranges_to_slots (dayRanges env dt) env.working.slot_interval_minutes serv
  (_subtract_appointments all_slots (getTaken cal ds) serv).bind (fun free0 =>
    (dpFilter dp serv free0).bind (fun free1 =>
      if ds = strftime10 env.now then
        filterByTime (fun v => decide (v + serv > nowMinutes env)) free1
      else some free1))

/-- The daypart window `check_availability` uses: the explicit `daypart`
argument if given, otherwise the one embedded in the phrase. -/
def dpArg (daypart : Option (Str × Str)) (date_phrase : Str) : Option (Str × Str) :=
  match daypart with
  | some d => some d
  | none => (extract_daypart date_phrase).2

/-- `check_availability(date_phrase, service_name, limit, daypart)`:
extract an embedded daypart (an explicit `daypart` argument wins), parse
the cleaned phrase (empty falls back to `"today"`), resolve ranges with the
exception override, then expand → subtract booked → daypart filter →
today filter → cap at `max(1, limit)`. -/
def check_availability (env : Env) (cal : Calendar) (date_phrase : Str)
    (service_name : Option Str) (limit : Nat) (daypart : Option (Str × Str)) :
    Option CheckResult :=
  let dp := dpArg daypart date_phrase
  match parse_natural_date (cleanedPhrase date_phrase) env.now with
  | none => some { error := some msgParseErr, available := [], date := none }
  | some dt =>
    let ds := strftime10 dt
    let wd := WEEKDAY_NAMES.getD (pyWeekday dt.od) []
    if dayRanges env dt = [] then
      some { date := some ds, weekday := some wd, available := [], closed := true }
    else
      let serv := _get_service_minutes env.services service_name
      (availFree env cal dt serv dp).map (fun free =>
        { date := some ds, weekday := some wd, service := service_name,
          duration_minutes := some serv,
          available := free.take (max 1 limit),
          total_available := some free.length })

/-! ## `book_appointment` -/

def msgBadTime : Str := "Please enter time as HH:MM (e.g., 09:00 or 1:30 pm).".toList

def msgClosed : Str := "The salon is closed that day.".toList

def msgSlotNA : Str := "That start time isn’t available.".toList

def msgConfirmed : Str := "Your appointment is confirmed!".toList

/-- Result dict of `book_appointment`.  `Option` fields model keys that are
absent on some return paths (notably `alternatives`, absent from the
bad-time-format and closed-day rejections); a key present with value `None`
(the `date` of the unparseable-date rejection) is folded to `none` as well,
which is exactly how every caller reads it. -/
structure BookResult where
  success : Bool
  error : Option Str := none
  message : Option Str := none
  alternatives : Option (List Str) := none
  date : Option Str := none
  start_time : Option Str := none
  end_time : Option Str := none
  service : Option Str := none
  duration_minutes : Option Nat := none
  client_name : Option Str := none
deriving DecidableEq, Repr

/-- `book_appointment(date_str, start_time, service_name, client...)`:
strip a daypart word from the date, normalize the start time, re-check
availability (limit 10000), then commit through `_append_appointment`; on a
commit race, recompute availability for the alternatives.  The follow-up
`_append_booking_record` writes only the separate contact log
(`bookings.json`), never the calendar, and is not modelled. -/
def book_appointment (env : Env) (cal : Calendar) (date_str start_time : Str)
    (service_name : Option Str) (client_name : Str) :
    Option (BookResult × Calendar) :=
  let cleaned := (extract_daypart date_str).1
  let dstr := if cleaned = [] then date_str else cleaned
  match _normalize_time_to_hhmm start_time with
  | none => some ({ success := false, error := some msgBadTime }, cal)
  | some stn =>
    let dur := _get_service_minutes env.services service_name
    (check_availability env cal dstr service_name 10000 none).bind (fun avail =>
      if avail.closed then some ({ success := false, error := some msgClosed }, cal)
      else
        let free := avail.available
        if stn ∈ free then
          match _append_appointment cal (avail.date.getD []) stn dur with
          | ((true, _), cal2) =>
            (_time_to_minutes stn).map (fun sm =>
              ({ success := true, message := some msgConfirmed, date := avail.date,
                 start_time := some stn, end_time := some (_minutes_to_time (sm + dur)),
                 service := service_name, duration_minutes := some dur,
                 client_name := some client_name }, cal2))
          | ((false, m), cal2) =>
            (check_availability env cal2 (avail.date.getD []) service_name 8 none).map
              (fun fresh =>
                ({ success := false, error := some m,
                   alternatives := some fresh.available, date := avail.date,
                   service := service_name, duration_minutes := some dur }, cal2))
        else
          some ({ success := false, error := some msgSlotNA,
                  alternatives := some (free.take 10), date := avail.date,
                  service := service_name, duration_minutes := some dur }, cal))

/-- One booking request: date phrase, start time, service, client name. -/
structure BookReq where
  date_str : Str
  start_time : Str
  service_name : Option Str
  client_name : Str
deriving DecidableEq, Repr

/-- A sequence of sequential `book_appointment` calls threading the
calendar; a call that would raise leaves the calendar as it was. -/
def runBookings (env : Env) (reqs : List BookReq) (cal : Calendar) : Calendar :=
  match reqs with
  | [] => cal
  | q :: rest =>
    let cal' :=
      match book_appointment env cal q.date_str q.start_time q.service_name q.client_name with
      | some (_, c) => c
      | none => cal
    runBookings env rest cal'
/-! ## Digit and round-trip lemmas -/

theorem toNat_digitChar {d : Nat} (h : d < 10) : (digitChar d).toNat = 48 + d := by
  interval_cases d <;> rfl

theorem char_ne_of_toNat {a b : Char} (h : a.toNat ≠ b.toNat) : a ≠ b :=
  fun e => h (by rw [e])

theorem charDigit_digitChar {d : Nat} (h : d < 10) : charDigit (digitChar d) = d := by
  simp [charDigit, toNat_digitChar h]

theorem isDigitChar_digitChar {d : Nat} (h : d < 10) : isDigitChar (digitChar d) = true := by
  simp [isDigitChar, toNat_digitChar h]; omega

theorem natToCharsF_eq {fuel fuel' n : Nat} (h : n < fuel) (h' : n < fuel') :
    natToCharsF fuel n = natToCharsF fuel' n := by
  induction fuel generalizing fuel' n with
  | zero => omega
  | succ fuel ih =>
    cases fuel' with
    | zero => omega
    | succ fuel' =>
      rw [natToCharsF, natToCharsF]
      by_cases h10 : n < 10
      · simp [h10]
      · have hd : n / 10 < n := Nat.div_lt_self (by omega) (by omega)
        rw [if_neg h10, if_neg h10]
        congr 1
        exact ih (by omega) (by omega)

theorem natToChars_ne_nil (n : Nat) : natToChars n ≠ [] := by
  rw [natToChars, natToCharsF]
  split <;> simp

theorem natToChars_all_digit (n : Nat) : ∀ c ∈ natToChars n, isDigitChar c = true := by
  induction n using Nat.strong_induction_on with
  | _ n ih =>
    rw [natToChars, natToCharsF]
    split
    next h =>
      intro c hc
      simp at hc
      subst hc
      exact isDigitChar_digitChar h
    next h =>
      intro c hc
      simp at hc
      have hd : n / 10 < n := Nat.div_lt_self (by omega) (by omega)
      rw [@natToCharsF_eq n (n / 10 + 1) (n / 10) (by omega) (by omega)] at hc
      rcases hc with hc | hc
      · exact ih (n / 10) hd c hc
      · subst hc
        exact isDigitChar_digitChar (Nat.mod_lt _ (by omega))

theorem natVal_append (xs : Str) (c : Char) :
    natVal (xs ++ [c]) = 10 * natVal xs + charDigit c := by
  simp [natVal, List.foldl_append]

theorem natVal_natToChars (n : Nat) : natVal (natToChars n) = n := by
  induction n using Nat.strong_induction_on with
  | _ n ih =>
    rw [natToChars, natToCharsF]
    split
    next h =>
      simp [natVal, charDigit_digitChar h]
    next h =>
      have hd : n / 10 < n := Nat.div_lt_self (by omega) (by omega)
      rw [@natToCharsF_eq n (n / 10 + 1) (n / 10) (by omega) (by omega)]
      have hih : natVal (natToCharsF (n / 10 + 1) (n / 10)) = n / 10 := ih (n / 10) hd
      rw [natVal_append, hih, charDigit_digitChar (Nat.mod_lt _ (by omega))]
      omega

theorem natVal_zeros_append (k : Nat) (l : Str) :
    natVal (List.replicate k '0' ++ l) = natVal l := by
  induction k with
  | zero => simp
  | succ k ihk =>
    have h : natVal (List.replicate (k+1) '0' ++ l) = natVal (List.replicate k '0' ++ l) := by
      simp [natVal, List.replicate_succ]
      rfl
    rw [h, ihk]

theorem fmt2_all_digit (n : Nat) : ∀ c ∈ fmt2 n, isDigitChar c = true := by
  intro c hc
  simp [fmt2] at hc
  rcases hc with ⟨_, hc⟩ | hc
  · subst hc; rfl
  · exact natToChars_all_digit n c hc

theorem fmt2_ne_nil (n : Nat) : fmt2 n ≠ [] := by
  simp only [fmt2]
  intro h
  rcases List.append_eq_nil.mp h with ⟨_, h2⟩
  exact natToChars_ne_nil n h2

theorem digit_not_space {c : Char} (h : isDigitChar c = true) : pyIsSpace c = false := by
  simp [isDigitChar] at h
  simp [pyIsSpace]
  omega

theorem pyTrim_eq_self {s : Str} (h : ∀ c ∈ s, pyIsSpace c = false) : pyTrim s = s := by
  have h1 : s.dropWhile pyIsSpace = s := by
    cases s with
    | nil => rfl
    | cons c rest =>
      rw [List.dropWhile_cons]
      simp [h c (by simp)]
  rw [pyTrim, h1]
  have h2 : s.reverse.dropWhile pyIsSpace = s.reverse := by
    cases hr : s.reverse with
    | nil => rfl
    | cons c rest =>
      rw [List.dropWhile_cons]
      have hm : c ∈ s := by
        rw [← List.mem_reverse, hr]; simp
      simp [h c hm]
  rw [h2, List.reverse_reverse]

theorem pyIntNat_of_digits {s : Str} (hne : s ≠ []) (hd : ∀ c ∈ s, isDigitChar c = true) :
    pyIntNat s = some (natVal s) := by
  have ht : pyTrim s = s := pyTrim_eq_self (fun c hc => digit_not_space (hd c hc))
  have hdig : pyIsDigits s = true := by
    simp [pyIsDigits, List.all_eq_true.mpr hd]
    simpa using hne
  simp [pyIntNat, ht, hdig]

theorem pyIntNat_fmt2 (n : Nat) : pyIntNat (fmt2 n) = some n := by
  rw [pyIntNat_of_digits (fmt2_ne_nil n) (fmt2_all_digit n)]
  simp [fmt2, natVal_zeros_append, natVal_natToChars]

/-! ## Split and time round-trip lemmas -/

theorem pySplit_no_sep {c : Char} {a : Str} (h : c ∉ a) : pySplit c a = [a] := by
  induction a with
  | nil => rfl
  | cons x rest ih =>
    have hx : ¬ x = c := fun e => h (by simp [e])
    have hrest : c ∉ rest := fun hm => h (by simp [hm])
    simp only [pySplit, hx, if_false, ih hrest]

theorem pySplit_append {c : Char} {a : Str} (b : Str) (h : c ∉ a) :
    pySplit c (a ++ c :: b) = a :: pySplit c b := by
  induction a with
  | nil => simp [pySplit]
  | cons x rest ih =>
    have hx : ¬ x = c := fun e => h (by simp [e])
    have hrest : c ∉ rest := fun hm => h (by simp [hm])
    rw [List.cons_append]
    simp only [pySplit, hx, if_false, ih hrest]

theorem pySplit_ne_nil (c : Char) (s : Str) : pySplit c s ≠ [] := by
  cases s with
  | nil => simp [pySplit]
  | cons x rest =>
    simp only [pySplit]
    split
    · simp
    · cases h : pySplit c rest <;> simp

theorem pySplit_single_inv {c : Char} {s a : Str} (h : pySplit c s = [a]) :
    s = a ∧ c ∉ a := by
  induction s generalizing a with
  | nil =>
    simp [pySplit] at h
    subst h
    simp
  | cons x rest ih =>
    simp only [pySplit] at h
    by_cases hx : x = c
    · simp only [hx, if_true] at h
      have h2 : pySplit c rest = [] := (List.cons.injEq _ _ _ _ ▸ h).2
      exact absurd h2 (pySplit_ne_nil c rest)
    · simp only [hx, if_false] at h
      cases hr : pySplit c rest with
      | nil => exact absurd hr (pySplit_ne_nil c rest)
      | cons p ps =>
        rw [hr] at h
        have ha : a = x :: p := ((List.cons.injEq _ _ _ _).mp h).1.symm
        have hps : ps = [] := ((List.cons.injEq _ _ _ _).mp h).2
        subst hps
        obtain ⟨h1, h2⟩ := ih hr
        subst h1 ha
        constructor
        · rfl
        · intro hm
          rcases List.mem_cons.mp hm with hm | hm
          · exact hx hm.symm
          · exact h2 hm

theorem pySplit_pair_inv {c : Char} {s a b : Str} (h : pySplit c s = [a, b]) :
    s = a ++ c :: b ∧ c ∉ a ∧ c ∉ b := by
  induction s generalizing a with
  | nil => simp [pySplit] at h
  | cons x rest ih =>
    simp only [pySplit] at h
    by_cases hx : x = c
    · simp only [hx, if_true] at h
      have ha : a = [] := ((List.cons.injEq _ _ _ _).mp h).1.symm
      have hb : pySplit c rest = [b] := ((List.cons.injEq _ _ _ _).mp h).2
      obtain ⟨h1, h2⟩ := pySplit_single_inv hb
      subst ha h1 hx
      simpa using h2
    · simp only [hx, if_false] at h
      cases hr : pySplit c rest with
      | nil => exact absurd hr (pySplit_ne_nil c rest)
      | cons p ps =>
        rw [hr] at h
        have ha : a = x :: p := ((List.cons.injEq _ _ _ _).mp h).1.symm
        have hps : ps = [b] := ((List.cons.injEq _ _ _ _).mp h).2
        rw [hps] at hr
        obtain ⟨h1, h2, h3⟩ := ih hr
        subst h1 ha
        refine ⟨rfl, ?_, h3⟩
        intro hm
        rcases List.mem_cons.mp hm with hm | hm
        · exact hx hm.symm
        · exact h2 hm

theorem digit_ne_colon {c : Char} (h : isDigitChar c = true) : c ≠ ':' := by
  intro e
  subst e
  simp [isDigitChar] at h

theorem digit_ne_dash {c : Char} (h : isDigitChar c = true) : c ≠ '-' := by
  intro e
  subst e
  simp [isDigitChar] at h

theorem colon_not_mem_fmt2 (n : Nat) : ':' ∉ fmt2 n := by
  intro h
  exact digit_ne_colon (fmt2_all_digit n ':' h) rfl

theorem dash_not_mem_fmt2 (n : Nat) : '-' ∉ fmt2 n := by
  intro h
  exact digit_ne_dash (fmt2_all_digit n '-' h) rfl

theorem tm_minutes_to_time (m : Nat) : _time_to_minutes (_minutes_to_time m) = some m := by
  simp only [_time_to_minutes, _minutes_to_time]
  rw [pySplit_append _ (colon_not_mem_fmt2 (m / 60)),
    pySplit_no_sep (colon_not_mem_fmt2 (m % 60))]
  simp only [pyIntNat_fmt2]
  congr 1
  omega

theorem tm_strftime5 (dt : PyDateTime) :
    _time_to_minutes (strftime5 dt) = some (dt.hour * 60 + dt.minute) := by
  simp only [_time_to_minutes, strftime5]
  rw [pySplit_append _ (colon_not_mem_fmt2 dt.hour),
    pySplit_no_sep (colon_not_mem_fmt2 dt.minute)]
  simp only [pyIntNat_fmt2]

theorem dash_not_mem_minutes_to_time (m : Nat) : '-' ∉ _minutes_to_time m := by
  intro h
  simp only [_minutes_to_time] at h
  rcases List.mem_append.mp h with h | h
  · exact dash_not_mem_fmt2 _ h
  · rcases List.mem_cons.mp h with h | h
    · exact absurd h (by decide)
    · exact dash_not_mem_fmt2 _ h

theorem mem_pyTrim_or_space {s : Str} {c : Char} (h : c ∈ s) :
    c ∈ pyTrim s ∨ pyIsSpace c = true := by
  by_cases hsp : pyIsSpace c = true
  · right; exact hsp
  · left
    have h1 : c ∈ s.dropWhile pyIsSpace := by
      have hs := List.takeWhile_append_dropWhile (p := pyIsSpace) (l := s)
      rw [← hs] at h
      rcases List.mem_append.mp h with h2 | h2
      · exact absurd (List.mem_takeWhile_imp h2) (by simp [hsp])
      · exact h2
    have h2 : c ∈ (s.dropWhile pyIsSpace).reverse.dropWhile pyIsSpace := by
      have hs := List.takeWhile_append_dropWhile (p := pyIsSpace)
        (l := (s.dropWhile pyIsSpace).reverse)
      rw [← List.mem_reverse] at h1
      rw [← hs] at h1
      rcases List.mem_append.mp h1 with h2 | h2
      · exact absurd (List.mem_takeWhile_imp h2) (by simp [hsp])
      · exact h2
    rw [pyTrim, List.mem_reverse]
    exact h2

theorem mem_of_pyIntNat {s : Str} {v : Nat} (h : pyIntNat s = some v) :
    ∀ c ∈ s, pyIsSpace c = true ∨ isDigitChar c = true := by
  intro c hc
  rcases mem_pyTrim_or_space hc with hm | hs
  · right
    simp only [pyIntNat] at h
    split at h
    next hd =>
      simp [pyIsDigits] at hd
      exact hd.2 c hm
    next => exact absurd h (by simp)
  · left; exact hs

theorem mem_of_tm {s : Str} {v : Nat} (h : _time_to_minutes s = some v) :
    ∀ c ∈ s, pyIsSpace c = true ∨ isDigitChar c = true ∨ c = ':' := by
  intro c hc
  simp only [_time_to_minutes] at h
  split at h
  next a b heq =>
    obtain ⟨hs, _, _⟩ := pySplit_pair_inv heq
    subst hs
    have hcases : ∀ x, pyIntNat x = some v → True := fun _ _ => trivial
    rcases List.mem_append.mp hc with hm | hm
    · cases h1 : pyIntNat a with
      | none => rw [h1] at h; simp at h
      | some hv =>
        rcases mem_of_pyIntNat h1 c hm with hx | hx
        · exact Or.inl hx
        · exact Or.inr (Or.inl hx)
    · rcases List.mem_cons.mp hm with hm | hm
      · exact Or.inr (Or.inr hm)
      · cases h1 : pyIntNat a with
        | none => rw [h1] at h; simp at h
        | some hv =>
          cases h2 : pyIntNat b with
          | none => rw [h1, h2] at h; simp at h
          | some mv =>
            rcases mem_of_pyIntNat h2 c hm with hx | hx
            · exact Or.inl hx
            · exact Or.inr (Or.inl hx)
  next => exact absurd h (by simp)

theorem dash_not_mem_of_tm {s : Str} {v : Nat} (h : _time_to_minutes s = some v) :
    '-' ∉ s := by
  intro hm
  rcases mem_of_tm h '-' hm with hx | hx | hx
  · exact absurd hx (by decide)
  · exact digit_ne_dash hx rfl
  · exact absurd hx (by decide)

theorem parseRange_build {s : Str} {sm : Nat} (h : _time_to_minutes s = some sm) (e : Nat) :
    parseRange (s ++ '-' :: _minutes_to_time e) = some (sm, e) := by
  simp only [parseRange]
  rw [pySplit_append _ (dash_not_mem_of_tm h),
    pySplit_no_sep (dash_not_mem_minutes_to_time e)]
  simp only [h, tm_minutes_to_time]

/-! ## Slot generation lemmas -/

/-- Modelled from the spec (§4.3): the number of candidates a well-formed
range `[s, e)` contributes at step `step` for duration `serv`. -/
def specSlotCount (s e serv step : Nat) : Nat :=
  if s + serv ≤ e then (e - serv - s) / step + 1 else 0

/-- Modelled from the spec (§4.3): the candidate sequence
`start, start+step, start+2*step, ...` emitted exactly while
`candidate + serv ≤ e`. -/
def specSlots (s e serv step : Nat) : List Str :=
  (List.range (specSlotCount s e serv step)).map (fun k => _minutes_to_time (s + k * step))

theorem emitLoop_eq {step : Nat} (hstep : 1 ≤ step) :
    ∀ (fuel t e serv : Nat), e + 1 ≤ fuel + t →
      emitLoop fuel t e serv step = specSlots t e serv step := by
  intro fuel
  induction fuel with
  | zero =>
    intro t e serv hfuel
    have h : ¬ (t + serv ≤ e) := by omega
    simp [emitLoop, specSlots, specSlotCount, h]
  | succ fuel ih =>
    intro t e serv hfuel
    by_cases h : t + serv ≤ e
    · rw [emitLoop, if_pos h, ih (t + step) e serv (by omega)]
      have hcount : specSlotCount t e serv step = specSlotCount (t + step) e serv step + 1 := by
        by_cases h2 : t + step + serv ≤ e
        · have he : e - serv - t = (e - serv - (t + step)) + step := by omega
          simp only [specSlotCount, if_pos h, if_pos h2, he, Nat.add_div_right _ hstep]
        · have hlt : e - serv - t < step := by omega
          simp only [specSlotCount, if_pos h, if_neg h2, Nat.div_eq_of_lt hlt]
      have hshape : specSlots t e serv step =
          _minutes_to_time t :: specSlots (t + step) e serv step := by
        rw [specSlots, hcount, List.range_succ_eq_map, List.map_cons, List.map_map]
        congr 1
        · simp
        · rw [specSlots]
          apply List.map_congr_left
          intro k _
          simp only [Function.comp_apply]
          congr 1
          rw [Nat.succ_mul]
          omega
      rw [hshape]
    · rw [emitLoop, if_neg h]
      simp [specSlots, specSlotCount, h]

/-- With a positive step, `_expand_ranges_to_slots` is exactly the spec's
candidate sequence, rangewise. -/
theorem expand_eq_spec {step : Nat} (hstep : 1 ≤ step) (ranges : List Str) (serv : Nat) :
    _expand_ranges_to_slots ranges step serv =
      (ranges.map (fun r =>
        match parseRange r with
        | some (s, e) => specSlots s e serv step
        | none => [])).flatten := by
  simp only [_expand_ranges_to_slots]
  congr 1
  apply List.map_congr_left
  intro r _
  cases h : parseRange r with
  | none => rfl
  | some se => exact emitLoop_eq hstep (se.2 + 1) se.1 se.2 serv (by omega)

theorem emitLoop_mem {fuel t e serv step : Nat} {x : Str}
    (h : x ∈ emitLoop fuel t e serv step) : ∃ v, x = _minutes_to_time v := by
  induction fuel generalizing t with
  | zero => simp [emitLoop] at h
  | succ fuel ih =>
    rw [emitLoop] at h
    split at h
    · rcases List.mem_cons.mp h with h | h
      · exact ⟨t, h⟩
      · exact ih h
    · simp at h

theorem expand_mem {ranges : List Str} {step serv : Nat} {x : Str}
    (h : x ∈ _expand_ranges_to_slots ranges step serv) : ∃ v, x = _minutes_to_time v := by
  simp only [_expand_ranges_to_slots, List.mem_flatten, List.mem_map] at h
  obtain ⟨l, ⟨r, _, hl⟩, hx⟩ := h
  subst hl
  split at hx
  · exact emitLoop_mem hx
  · simp at hx

theorem tm_isSome_of_expand {ranges : List Str} {step serv : Nat} {x : Str}
    (h : x ∈ _expand_ranges_to_slots ranges step serv) : (_time_to_minutes x).isSome := by
  obtain ⟨v, hv⟩ := expand_mem h
  rw [hv, tm_minutes_to_time]
  rfl

/-! ## Conflict and filter lemmas -/

theorem subtract_eq_filter {slots taken : List Str} {serv : Nat}
    (h : ∀ x ∈ slots, (_time_to_minutes x).isSome) :
    _subtract_appointments slots taken serv =
      some (slots.filter (fun s => !slotConflicts taken ((_time_to_minutes s).getD 0) serv)) := by
  induction slots with
  | nil => rfl
  | cons s rest ih =>
    obtain ⟨v, hv⟩ := Option.isSome_iff_exists.mp (h s (by simp))
    rw [_subtract_appointments, hv, ih (fun x hx => h x (by simp [hx]))]
    simp only [Option.map_some, List.filter_cons, hv, Option.getD_some]
    by_cases hc : slotConflicts taken v serv <;> simp [hc]

theorem filterByTime_eq_filter {slots : List Str} {p : Nat → Bool}
    (h : ∀ x ∈ slots, (_time_to_minutes x).isSome) :
    filterByTime p slots =
      some (slots.filter (fun s => p ((_time_to_minutes s).getD 0))) := by
  induction slots with
  | nil => rfl
  | cons s rest ih =>
    obtain ⟨v, hv⟩ := Option.isSome_iff_exists.mp (h s (by simp))
    rw [filterByTime, hv, ih (fun x hx => h x (by simp [hx]))]
    simp only [Option.map_some, List.filter_cons, hv, Option.getD_some]
    by_cases hc : p v <;> simp [hc]

/-- Every daypart window the extractor can produce parses. -/
theorem extract_daypart_window_parses {s : Str} {w : Str × Str}
    (h : (extract_daypart s).2 = some w) :
    (_time_to_minutes w.1).isSome ∧ (_time_to_minutes w.2).isSome := by
  simp only [extract_daypart] at h
  split at h
  next kv hf =>
    have hmem : kv ∈ DAYPARTS := List.mem_of_find?_eq_some hf
    have hw : w = kv.2 := by
      simp at h
      exact h.symm
    subst hw
    fin_cases hmem <;> decide
  next => simp at h

theorem dpFilter_eq_some {dp : Option (Str × Str)} (serv : Nat) {slots : List Str}
    (hs : ∀ x ∈ slots, (_time_to_minutes x).isSome)
    (hdp : dp = none ∨ ∃ s, (extract_daypart s).2 = dp) :
    ∃ keep, dpFilter dp serv slots = some keep ∧ keep.Sublist slots := by
  cases dp with
  | none => exact ⟨slots, rfl, List.Sublist.refl _⟩
  | some w =>
    have hw : (_time_to_minutes w.1).isSome ∧ (_time_to_minutes w.2).isSome := by
      rcases hdp with hdp | ⟨s, hdp⟩
      · exact absurd hdp (by simp)
      · exact extract_daypart_window_parses hdp
    obtain ⟨a, ha⟩ := Option.isSome_iff_exists.mp hw.1
    obtain ⟨b, hb⟩ := Option.isSome_iff_exists.mp hw.2
    refine ⟨slots.filter
        (fun s => decide (a ≤ (_time_to_minutes s).getD 0) &&
          decide ((_time_to_minutes s).getD 0 + serv ≤ b)), ?_, List.filter_sublist _⟩
    simp only [dpFilter, ha, hb]
    exact filterByTime_eq_filter hs

/-- The today filter, when it runs, also yields a sublist. -/
theorem todayFilter_eq_some {env : Env} {ds : Str} {serv : Nat} {slots : List Str}
    (hs : ∀ x ∈ slots, (_time_to_minutes x).isSome) :
    ∃ keep, (if ds = strftime10 env.now then
        filterByTime (fun v => decide (v + serv > nowMinutes env)) slots
      else some slots) = some keep ∧ keep.Sublist slots := by
  split
  · exact ⟨_, filterByTime_eq_filter hs, List.filter_sublist _⟩
  · exact ⟨slots, rfl, List.Sublist.refl _⟩

/-- `availFree` always succeeds when its daypart came from the extractor
(or is absent), and everything it keeps is an expanded slot that conflicts
with no parseable taken range. -/
theorem availFree_spec (env : Env) (cal : Calendar) (dt : PyDateTime) (serv : Nat)
    {dp : Option (Str × Str)} (hdp : dp = none ∨ ∃ s, (extract_daypart s).2 = dp) :
    ∃ free, availFree env cal dt serv dp = some free ∧
      ∀ x ∈ free,
        x ∈ _expand_ranges_to_slots (dayRanges env dt) env.working.slot_interval_minutes serv ∧
        slotConflicts (getTaken cal (strftime10 dt)) ((_time_to_minutes x).getD 0) serv = false := by
  have hparse : ∀ x ∈ _expand_ranges_to_slots (dayRanges env dt)
      env.working.slot_interval_minutes serv, (_time_to_minutes x).isSome :=
    fun x hx => tm_isSome_of_expand hx
  obtain ⟨free1, h1, hsub1⟩ :
      ∃ keep, _subtract_appointments
          (_expand_ranges_to_slots (dayRanges env dt) env.working.slot_interval_minutes serv)
          (getTaken cal (strftime10 dt)) serv = some keep ∧
        keep.Sublist (_expand_ranges_to_slots (dayRanges env dt)
          env.working.slot_interval_minutes serv) ∧
        ∀ x ∈ keep, slotConflicts (getTaken cal (strftime10 dt))
          ((_time_to_minutes x).getD 0) serv = false := by
    refine ⟨_, subtract_eq_filter hparse, List.filter_sublist _, ?_⟩
    intro x hx
    have := List.of_mem_filter hx
    simpa using this
  obtain ⟨hsub1, hnc1⟩ := hsub1
  have hparse1 : ∀ x ∈ free1, (_time_to_minutes x).isSome :=
    fun x hx => hparse x (hsub1.mem hx)
  obtain ⟨free2, h2, hsub2⟩ := dpFilter_eq_some serv hparse1 hdp
  have hparse2 : ∀ x ∈ free2, (_time_to_minutes x).isSome :=
    fun x hx => hparse1 x (hsub2.mem hx)
  obtain ⟨free3, h3, hsub3⟩ :=
    @todayFilter_eq_some env (strftime10 dt) serv free2 hparse2
  refine ⟨free3, ?_, ?_⟩
  · simp only [availFree]
    rw [h1, Option.some_bind, h2, Option.some_bind]
    exact h3
  · intro x hx
    have hx2 := hsub3.mem hx
    have hx1 := hsub2.mem hx2
    exact ⟨hsub1.mem hx1, hnc1 x hx1⟩

/-! ## Conflict characterization -/

theorem slotConflicts_iff {taken : List Str} {sm serv : Nat} :
    slotConflicts taken sm serv = true ↔
      ∃ r ∈ taken, ∃ rs re, parseRange r = some (rs, re) ∧
        pyOverlap sm (sm + serv) rs re = true := by
  simp only [slotConflicts, List.any_eq_true]
  constructor
  · rintro ⟨r, hr, hp⟩
    cases hpr : parseRange r with
    | none => rw [hpr] at hp; simp at hp
    | some p =>
      obtain ⟨rs, re⟩ := p
      rw [hpr] at hp
      exact ⟨r, hr, rs, re, hpr, hp⟩
  · rintro ⟨r, hr, rs, re, hpr, hov⟩
    refine ⟨r, hr, ?_⟩
    rw [hpr]
    exact hov

theorem mem_subtract_iff {slots taken : List Str} {serv : Nat} {keep : List Str}
    (h : ∀ x ∈ slots, (_time_to_minutes x).isSome)
    (hk : _subtract_appointments slots taken serv = some keep)
    {s : Str} {sm : Nat} (hs : _time_to_minutes s = some sm) :
    s ∈ keep ↔ s ∈ slots ∧
      ∀ r ∈ taken, ∀ rs re, parseRange r = some (rs, re) →
        ¬ (sm < re ∧ sm + serv > rs) := by
  rw [subtract_eq_filter h] at hk
  injection hk with hk
  subst hk
  rw [List.mem_filter]
  constructor
  · rintro ⟨hmem, hpred⟩
    refine ⟨hmem, ?_⟩
    intro r hr rs re hpr hov
    rw [hs] at hpred
    simp only [Option.getD_some, Bool.not_eq_true'] at hpred
    have : slotConflicts taken sm serv = true :=
      slotConflicts_iff.mpr ⟨r, hr, rs, re, hpr, by
        simp [pyOverlap, hov.1, hov.2]⟩
    rw [this] at hpred
    exact absurd hpred (by simp)
  · rintro ⟨hmem, hno⟩
    refine ⟨hmem, ?_⟩
    rw [hs]
    simp only [Option.getD_some, Bool.not_eq_true']
    by_contra hc
    simp only [Bool.not_eq_false] at hc
    obtain ⟨r, hr, rs, re, hpr, hov⟩ := slotConflicts_iff.mp hc
    simp only [pyOverlap, Bool.and_eq_true, decide_eq_true_eq] at hov
    exact hno r hr rs re hpr ⟨hov.1, hov.2⟩

/-- C4: in both the availability conflict filter (`_subtract_appointments`)
and the commit-time collision check (`_append_appointment`), a candidate
`[sm, sm+serv)` conflicts with a booked `[rs, re)` iff `sm < re` and
`sm + serv > rs`; in particular back-to-back intervals never conflict, so a
candidate starting exactly at a booking's end, or ending exactly at a
booking's start, is kept. -/
theorem C4_half_open_conflict
    (slots taken : List Str) (serv : Nat) (keep : List Str) (cal : Calendar)
    (ds start : Str) (sm : Nat)
    (hslots : ∀ x ∈ slots, (_time_to_minutes x).isSome)
    (hk : _subtract_appointments slots taken serv = some keep)
    (hstart : _time_to_minutes start = some sm) :
    (∀ s vs, _time_to_minutes s = some vs →
      (s ∈ keep ↔ s ∈ slots ∧
        ∀ r ∈ taken, ∀ rs re, parseRange r = some (rs, re) →
          ¬ (vs < re ∧ vs + serv > rs))) ∧
    (((_append_appointment cal ds start serv).1.1 = false) ↔
      ∃ r ∈ getTaken cal ds, ∃ rs re, parseRange r = some (rs, re) ∧
        sm < re ∧ sm + serv > rs) ∧
    (∀ rs re, sm = re ∨ sm + serv = rs → pyOverlap sm (sm + serv) rs re = false) := by
  refine ⟨fun s vs hv => mem_subtract_iff hslots hk hv, ?_, ?_⟩
  · simp only [_append_appointment, hstart]
    by_cases hc : slotConflicts (getTaken cal ds) sm serv
    · simp only [hc, if_true]
      constructor
      · intro _
        obtain ⟨r, hr, rs, re, hpr, hov⟩ := slotConflicts_iff.mp hc
        simp only [pyOverlap, Bool.and_eq_true, decide_eq_true_eq] at hov
        exact ⟨r, hr, rs, re, hpr, hov.1, hov.2⟩
      · intro _; trivial
    · simp only [hc, if_false]
      constructor
      · intro h; exact absurd h (by simp)
      · rintro ⟨r, hr, rs, re, hpr, h1, h2⟩
        have hcf : slotConflicts (getTaken cal ds) sm serv = true :=
          slotConflicts_iff.mpr ⟨r, hr, rs, re, hpr, by
            simp only [pyOverlap, Bool.and_eq_true, decide_eq_true_eq]
            exact ⟨h1, h2⟩⟩
        exact absurd hcf (by simp [hc])
  · intro rs re h
    rcases h with h | h <;> simp [pyOverlap, h]

/-- Witness for C4 at concrete inputs: slots from a 10:00–14:00 day, one
booked interval 10:00–10:30, a candidate starting at its end. -/
theorem C4_witness :
    ((_append_appointment [("2025-10-18".toList, ["10:00-10:30".toList])]
        "2025-10-18".toList "10:30".toList 30).1.1 = false) ↔
      ∃ r ∈ getTaken [("2025-10-18".toList, ["10:00-10:30".toList])] "2025-10-18".toList,
        ∃ rs re, parseRange r = some (rs, re) ∧ 630 < re ∧ 630 + 30 > rs :=
  (C4_half_open_conflict ["10:00".toList, "10:30".toList] ["10:00-10:30".toList] 30
    ["10:30".toList] [("2025-10-18".toList, ["10:00-10:30".toList])]
    "2025-10-18".toList "10:30".toList 630
    (by decide) (by decide) (by decide)).2.1

/-- C9: `_expand_ranges_to_slots` emits, for each well-formed range,
exactly the candidates `start, start+step, start+2*step, ...` while
`candidate + serv ≤ rangeEnd`; every emitted slot fits inside its own
range, and a duration exceeding every range yields the empty list. -/
theorem C9_slot_generation (ranges : List Str) (step serv : Nat) (hstep : 1 ≤ step) :
    _expand_ranges_to_slots ranges step serv =
      (ranges.map (fun r =>
        match parseRange r with
        | some (s, e) => specSlots s e serv step
        | none => [])).flatten ∧
    (∀ x ∈ _expand_ranges_to_slots ranges step serv, ∃ r ∈ ranges, ∃ s e k,
      parseRange r = some (s, e) ∧ x = _minutes_to_time (s + k * step) ∧
      s + k * step + serv ≤ e) ∧
    ((∀ r ∈ ranges, ∀ s e, parseRange r = some (s, e) → e < s + serv) →
      _expand_ranges_to_slots ranges step serv = []) := by
  refine ⟨expand_eq_spec hstep ranges serv, ?_, ?_⟩
  · intro x hx
    rw [expand_eq_spec hstep ranges serv] at hx
    simp only [List.mem_flatten, List.mem_map] at hx
    obtain ⟨l, ⟨r, hr, hl⟩, hxl⟩ := hx
    subst hl
    refine ⟨r, hr, ?_⟩
    cases hpr : parseRange r with
    | none => rw [hpr] at hxl; simp at hxl
    | some p =>
      obtain ⟨s, e⟩ := p
      rw [hpr] at hxl
      simp only [specSlots, List.mem_map, List.mem_range] at hxl
      obtain ⟨k, hk, hxk⟩ := hxl
      refine ⟨s, e, k, rfl, hxk.symm, ?_⟩
      simp only [specSlotCount] at hk
      split at hk
      next hfit =>
        have hk' : k ≤ (e - serv - s) / step := by omega
        have h2 : k * step ≤ (e - serv - s) / step * step :=
          Nat.mul_le_mul_right step hk'
        have h3 : (e - serv - s) / step * step ≤ e - serv - s :=
          Nat.div_mul_le_self _ _
        omega
      next => omega
  · intro hall
    rw [expand_eq_spec hstep ranges serv]
    apply List.flatten_eq_nil_iff.mpr
    intro l hl
    simp only [List.mem_map] at hl
    obtain ⟨r, hr, hl⟩ := hl
    subst hl
    cases hpr : parseRange r with
    | none => rfl
    | some p =>
      obtain ⟨s, e⟩ := p
      have hlt : e < s + serv := hall r hr s e hpr
      simp [specSlots, specSlotCount, Nat.not_le.mpr hlt, List.range_zero]

/-- Witness for C9: a 10:00–14:00 range at step 15, duration 30. -/
theorem C9_witness :
    _expand_ranges_to_slots ["10:00-14:00".toList] 15 30 =
      (["10:00-14:00".toList].map (fun r =>
        match parseRange r with
        | some (s, e) => specSlots s e 30 15
        | none => [])).flatten :=
  (C9_slot_generation ["10:00-14:00".toList] 15 30 (by decide)).1

/-! ## Lemmas for `_normalize_time_to_hhmm` on well-formed inputs -/

theorem natVal_fmt2 (n : Nat) : natVal (fmt2 n) = n := by
  simp [fmt2, natVal_zeros_append, natVal_natToChars]

theorem toLower_digit {c : Char} (h : isDigitChar c = true) : c.toLower = c := by
  simp only [isDigitChar, Bool.and_eq_true, decide_eq_true_eq] at h
  simp only [Char.toLower]
  split
  next h2 => omega
  next => rfl

theorem pyLower_eq_self {s : Str} (h : ∀ c ∈ s, c.toLower = c) : pyLower s = s := by
  simp only [pyLower]
  rw [List.map_congr_left h]
  simp

theorem pyReplaceF_single_not_mem {s : Str} {p : Char} (rep : Str) (h : p ∉ s) :
    ∀ fuel, s.length < fuel → pyReplaceF fuel s [p] rep = s := by
  induction s with
  | nil =>
    intro fuel hf
    cases fuel with
    | zero => omega
    | succ f => rw [pyReplaceF]
  | cons c rest ih =>
    intro fuel hf
    cases fuel with
    | zero => omega
    | succ f =>
      have hc : ¬ (p == c) = true := by
        intro hb
        exact h (by simp [eq_of_beq hb])
      rw [pyReplaceF]
      have hpre : ¬ ([p] ≠ [] ∧ List.isPrefixOf [p] (c :: rest)) := by
        rintro ⟨_, hp⟩
        simp only [List.isPrefixOf, Bool.and_eq_true] at hp
        exact hc hp.1
      rw [if_neg hpre, ih (fun hm => h (by simp [hm])) f (by simp at hf; omega)]

theorem pyReplace_single_not_mem {s : Str} {p : Char} (rep : Str) (h : p ∉ s) :
    pyReplace s [p] rep = s :=
  pyReplaceF_single_not_mem rep h (s.length + 1) (Nat.lt_succ_self _)

theorem isPrefixOf_self_append (l x : Str) : List.isPrefixOf l (l ++ x) = true := by
  induction l with
  | nil => simp [List.isPrefixOf]
  | cons c rest ih => simp [List.isPrefixOf, ih]

theorem strEndsWith_append (a p : Str) : strEndsWith (a ++ p) p = true := by
  simp only [strEndsWith, List.reverse_append]
  exact isPrefixOf_self_append p.reverse a.reverse

theorem strEndsWith_snoc_false {a : Str} {c x y : Char} (h : (y == c) = false) :
    strEndsWith (a ++ [c]) [x, y] = false := by
  simp only [strEndsWith, List.reverse_append, List.reverse_cons, List.reverse_nil,
    List.nil_append, List.cons_append, List.isPrefixOf, h, Bool.false_and]

theorem pyIsDigits_false_of_colon {s : Str} (h : ':' ∈ s) : pyIsDigits s = false := by
  simp only [pyIsDigits]
  have : s.all isDigitChar = false := by
    rw [List.all_eq_false]
    exact ⟨':', h, by decide⟩
  simp [this]

theorem pyIsDigits_true {s : Str} (hne : s ≠ []) (hd : ∀ c ∈ s, isDigitChar c = true) :
    pyIsDigits s = true := by
  cases s with
  | nil => exact absurd rfl hne
  | cons c rest =>
    simp only [pyIsDigits, List.isEmpty_cons, Bool.not_false, Bool.true_and]
    exact List.all_eq_true.mpr hd

theorem snoc_form {b : Str} (hb : b ≠ []) :
    ∃ b0 c, b = b0 ++ [c] ∧ c ∈ b := by
  refine ⟨b.dropLast, b.getLast hb, (List.dropLast_append_getLast hb).symm, List.getLast_mem hb⟩

/-- The spine of `_normalize_time_to_hhmm` on an `H:MM`-shaped all-digit
input with no am/pm marker. -/
theorem normalize_hm {a b : Str} {h m : Nat}
    (ha : a ≠ []) (had : ∀ c ∈ a, isDigitChar c = true) (hva : natVal a = h)
    (hb : b ≠ []) (hbd : ∀ c ∈ b, isDigitChar c = true) (hvb : natVal b = m) :
    _normalize_time_to_hhmm (a ++ ':' :: b) =
      if h ≤ 23 ∧ m ≤ 59 then some (fmt2 h ++ ':' :: fmt2 m) else none := by
  have hchars : ∀ c ∈ a ++ ':' :: b, isDigitChar c = true ∨ c = ':' := by
    intro c hc
    rcases List.mem_append.mp hc with hc | hc
    · exact Or.inl (had c hc)
    · rcases List.mem_cons.mp hc with hc | hc
      · exact Or.inr hc
      · exact Or.inl (hbd c hc)
  have hne : a ++ ':' :: b ≠ [] := by simp
  have htrim : pyTrim (a ++ ':' :: b) = a ++ ':' :: b :=
    pyTrim_eq_self (fun c hc => by
      rcases hchars c hc with h1 | h1
      · exact digit_not_space h1
      · subst h1; rfl)
  have hlower : pyLower (a ++ ':' :: b) = a ++ ':' :: b :=
    pyLower_eq_self (fun c hc => by
      rcases hchars c hc with h1 | h1
      · exact toLower_digit h1
      · subst h1; rfl)
  have hdot : '.' ∉ a ++ ':' :: b := by
    intro hm'
    rcases hchars '.' hm' with h1 | h1
    · exact absurd h1 (by decide)
    · exact absurd h1 (by decide)
  have hspace : ' ' ∉ a ++ ':' :: b := by
    intro hm'
    rcases hchars ' ' hm' with h1 | h1
    · exact absurd h1 (by decide)
    · exact absurd h1 (by decide)
  obtain ⟨b0, clast, hbform, hcmem⟩ := snoc_form hb
  have hclast : isDigitChar clast = true := hbd clast hcmem
  have hsnoc : a ++ ':' :: b = (a ++ ':' :: b0) ++ [clast] := by
    rw [hbform]
    simp
  have hm_ne : ('m' == clast) = false := by
    rw [beq_eq_false_iff_ne]
    intro e
    rw [← e] at hclast
    exact absurd hclast (by decide)
  have hends_am : strEndsWith (a ++ ':' :: b) "am".toList = false := by
    rw [hsnoc]
    exact strEndsWith_snoc_false hm_ne
  have hends_pm : strEndsWith (a ++ ':' :: b) "pm".toList = false := by
    rw [hsnoc]
    exact strEndsWith_snoc_false hm_ne
  have hdig_false : pyIsDigits (a ++ ':' :: b) = false :=
    pyIsDigits_false_of_colon (by simp)
  have hcontains : (a ++ ':' :: b).contains ':' = true := by
    simp [List.contains]
  have hsplit : pySplit ':' (a ++ ':' :: b) = [a, b] := by
    rw [pySplit_append b (fun hc => by
      have := had ':' hc
      exact absurd this (by decide))]
    rw [pySplit_no_sep (fun hc => by
      have := hbd ':' hc
      exact absurd this (by decide))]
  have hr1 : pyReplace (a ++ ':' :: b) ".".toList ":".toList = a ++ ':' :: b := by
    show pyReplace (a ++ ':' :: b) ['.'] ":".toList = _
    exact pyReplace_single_not_mem _ hdot
  have hr2 : pyReplace (a ++ ':' :: b) " ".toList [] = a ++ ':' :: b := by
    show pyReplace (a ++ ':' :: b) [' '] [] = _
    exact pyReplace_single_not_mem _ hspace
  simp only [_normalize_time_to_hhmm, normalizeFinish, if_neg hne, htrim,
    hlower, hr1, hr2, hends_am, hends_pm, Bool.false_eq_true, if_false,
    Option.isSome_none, hdig_false, hcontains, if_true, hsplit,
    pyIsDigits_true ha had, pyIsDigits_true hb hbd, Bool.and_self, hva, hvb]

theorem strEndsWith_pair (a : Str) (c d x y : Char) :
    strEndsWith (a ++ [c, d]) [x, y] = ((y == d) && (x == c)) := by
  have hrev : (a ++ [c, d]).reverse = d :: c :: a.reverse := by simp
  simp [strEndsWith, hrev, List.isPrefixOf]

/-- The spine of `_normalize_time_to_hhmm` on an `H:MM`-shaped all-digit
input with a trailing `pm`. -/
theorem normalize_hm_pm {a b : Str} {h m : Nat}
    (ha : a ≠ []) (had : ∀ c ∈ a, isDigitChar c = true) (hva : natVal a = h)
    (hb : b ≠ []) (hbd : ∀ c ∈ b, isDigitChar c = true) (hvb : natVal b = m) :
    _normalize_time_to_hhmm (a ++ ':' :: b ++ "pm".toList) =
      (if (if h ≠ 12 then h + 12 else h) ≤ 23 ∧ m ≤ 59
       then some (fmt2 (if h ≠ 12 then h + 12 else h) ++ ':' :: fmt2 m)
       else none) := by
  have hassoc : a ++ ':' :: b ++ "pm".toList = (a ++ ':' :: b) ++ ['p', 'm'] := by
    simp
  have hchars : ∀ c ∈ a ++ ':' :: b ++ "pm".toList,
      isDigitChar c = true ∨ c = ':' ∨ c = 'p' ∨ c = 'm' := by
    intro c hc
    rcases List.mem_append.mp hc with hc | hc
    · rcases List.mem_append.mp hc with hc | hc
      · exact Or.inl (had c hc)
      · rcases List.mem_cons.mp hc with hc | hc
        · exact Or.inr (Or.inl hc)
        · exact Or.inl (hbd c hc)
    · rcases List.mem_cons.mp hc with hc | hc
      · exact Or.inr (Or.inr (Or.inl hc))
      · simp at hc
        exact Or.inr (Or.inr (Or.inr hc))
  have hne : a ++ ':' :: b ++ "pm".toList ≠ [] := by simp
  have htrim : pyTrim (a ++ ':' :: b ++ "pm".toList) = a ++ ':' :: b ++ "pm".toList :=
    pyTrim_eq_self (fun c hc => by
      rcases hchars c hc with h1 | h1 | h1 | h1
      · exact digit_not_space h1
      all_goals (subst h1; rfl))
  have hlower : pyLower (a ++ ':' :: b ++ "pm".toList) = a ++ ':' :: b ++ "pm".toList :=
    pyLower_eq_self (fun c hc => by
      rcases hchars c hc with h1 | h1 | h1 | h1
      · exact toLower_digit h1
      all_goals (subst h1; rfl))
  have hdot : '.' ∉ a ++ ':' :: b ++ "pm".toList := by
    intro hm'
    rcases hchars '.' hm' with h1 | h1 | h1 | h1
    · exact absurd h1 (by decide)
    all_goals exact absurd h1 (by decide)
  have hspace : ' ' ∉ a ++ ':' :: b ++ "pm".toList := by
    intro hm'
    rcases hchars ' ' hm' with h1 | h1 | h1 | h1
    · exact absurd h1 (by decide)
    all_goals exact absurd h1 (by decide)
  have hr1 : pyReplace (a ++ ':' :: b ++ "pm".toList) ".".toList ":".toList =
      a ++ ':' :: b ++ "pm".toList := by
    show pyReplace (a ++ ':' :: b ++ "pm".toList) ['.'] ":".toList = _
    exact pyReplace_single_not_mem _ hdot
  have hr2 : pyReplace (a ++ ':' :: b ++ "pm".toList) " ".toList [] =
      a ++ ':' :: b ++ "pm".toList := by
    show pyReplace (a ++ ':' :: b ++ "pm".toList) [' '] [] = _
    exact pyReplace_single_not_mem _ hspace
  have hends_am : strEndsWith (a ++ ':' :: b ++ "pm".toList) "am".toList = false := by
    rw [hassoc]
    show strEndsWith ((a ++ ':' :: b) ++ ['p', 'm']) ['a', 'm'] = false
    rw [strEndsWith_pair]
    decide
  have hends_pm : strEndsWith (a ++ ':' :: b ++ "pm".toList) "pm".toList = true := by
    rw [hassoc]
    show strEndsWith ((a ++ ':' :: b) ++ ['p', 'm']) ['p', 'm'] = true
    rw [strEndsWith_pair]
    decide
  have htake : (a ++ ':' :: b ++ "pm".toList).take
      ((a ++ ':' :: b ++ "pm".toList).length - 2) = a ++ ':' :: b := by
    rw [hassoc]
    have hlen : ((a ++ ':' :: b) ++ ['p', 'm']).length - 2 = (a ++ ':' :: b).length := by
      simp
      omega
    rw [hlen, List.take_left]
  have hdig_false : pyIsDigits (a ++ ':' :: b) = false :=
    pyIsDigits_false_of_colon (by simp)
  have hcontains : (a ++ ':' :: b).contains ':' = true := by
    simp [List.contains]
  have hsplit : pySplit ':' (a ++ ':' :: b) = [a, b] := by
    rw [pySplit_append b (fun hc => by
      have := had ':' hc
      exact absurd this (by decide))]
    rw [pySplit_no_sep (fun hc => by
      have := hbd ':' hc
      exact absurd this (by decide))]
  have hpm_ne_am : ("pm".toList = "am".toList) = False := by simp
  simp only [_normalize_time_to_hhmm, normalizeFinish, if_neg hne, htrim,
    hlower, hr1, hr2, hends_am, hends_pm, Bool.false_eq_true, if_false,
    if_true, Option.isSome_some, htake, hdig_false, hcontains, hsplit,
    pyIsDigits_true ha had, pyIsDigits_true hb hbd, Bool.and_self, hva, hvb,
    hpm_ne_am]

/-- C8: `_normalize_time_to_hhmm` maps `12am` to `00:00`, keeps `12pm` as
`12:00`, adds 12 to any other hour with `pm`, rejects out-of-range hours and
minutes and malformed shapes, and is a fixed point on its own `HH:MM`
output (e.g. `1:30 pm → 13:30`, `9 → 09:00`). -/
theorem C8_normalize_time :
    _normalize_time_to_hhmm "12am".toList = some "00:00".toList ∧
    _normalize_time_to_hhmm "12pm".toList = some "12:00".toList ∧
    _normalize_time_to_hhmm "1:30 pm".toList = some "13:30".toList ∧
    _normalize_time_to_hhmm "9".toList = some "09:00".toList ∧
    (∀ h m, h ≤ 11 → m ≤ 59 →
      _normalize_time_to_hhmm (natToChars h ++ ':' :: fmt2 m ++ "pm".toList) =
        some (fmt2 (h + 12) ++ ':' :: fmt2 m)) ∧
    (∀ h m, 24 ≤ h ∨ 60 ≤ m →
      _normalize_time_to_hhmm (natToChars h ++ ':' :: natToChars m) = none) ∧
    _normalize_time_to_hhmm "9:3:0".toList = none ∧
    _normalize_time_to_hhmm [] = none ∧
    (∀ h m, h ≤ 23 → m ≤ 59 →
      _normalize_time_to_hhmm (fmt2 h ++ ':' :: fmt2 m) = some (fmt2 h ++ ':' :: fmt2 m)) := by
  refine ⟨by decide, by decide, by decide, by decide, ?_, ?_, by decide, by decide, ?_⟩
  · intro h m hh hm
    rw [normalize_hm_pm (natToChars_ne_nil h) (natToChars_all_digit h)
      (natVal_natToChars h) (fmt2_ne_nil m) (fmt2_all_digit m) (natVal_fmt2 m)]
    have hne12 : h ≠ 12 := by omega
    rw [if_pos hne12, if_pos ⟨by omega, hm⟩]
  · intro h m hout
    rw [normalize_hm (natToChars_ne_nil h) (natToChars_all_digit h)
      (natVal_natToChars h) (natToChars_ne_nil m) (natToChars_all_digit m)
      (natVal_natToChars m)]
    rw [if_neg (by omega)]
  · intro h m hh hm
    rw [normalize_hm (fmt2_ne_nil h) (fmt2_all_digit h) (natVal_fmt2 h)
      (fmt2_ne_nil m) (fmt2_all_digit m) (natVal_fmt2 m)]
    rw [if_pos ⟨hh, hm⟩]

/-- Witness for C8 at a concrete input: `1:30` with `pm` becomes `13:30`. -/
theorem C8_witness :
    _normalize_time_to_hhmm (natToChars 1 ++ ':' :: fmt2 30 ++ "pm".toList) =
      some (fmt2 (1 + 12) ++ ':' :: fmt2 30) :=
  C8_normalize_time.2.2.2.2.1 1 30 (by decide) (by decide)

/-! ## C2: the `"next " + weekday` rule -/

/-- The seven lowercase weekday tokens in source order. -/
def dayTok (w : Fin 7) : Str :=
  ["mon".toList, "tue".toList, "wed".toList, "thu".toList,
   "fri".toList, "sat".toList, "sun".toList].getD w []

/-- The distance `((idx - weekday) % 7) or 7` that the `"next "` branch of
`parse_natural_date` adds to the anchor. -/
def nextDelta (idx : Nat) (anchor : PyDateTime) : Nat :=
  (if (((idx : Int) - (pyWeekday anchor.od : Int)) % 7) = 0 then 7
   else ((idx : Int) - (pyWeekday anchor.od : Int)) % 7).toNat

theorem nextDelta_spec (idx : Nat) (hidx : idx < 7) (anchor : PyDateTime) :
    1 ≤ nextDelta idx anchor ∧ nextDelta idx anchor ≤ 7 ∧
    pyWeekday (anchor.od + nextDelta idx anchor) = idx ∧
    (pyWeekday anchor.od = idx → nextDelta idx anchor = 7) := by
  refine ⟨?_, ?_, ?_, ?_⟩ <;>
    · simp only [nextDelta, pyWeekday]
      split <;> omega

/-- C2 (amended): `parse_natural_date("next " + weekday, anchor)` lands
`((idx - anchorWeekday) mod 7) or 7` days out — between one and seven days,
on the requested weekday, and exactly seven days out (never today) when the
anchor's weekday already equals the requested one. -/
theorem C2_next_weekday (anchor : PyDateTime) (w : Fin 7) :
    parse_natural_date ("next ".toList ++ dayTok w) anchor =
      some ⟨anchor.od + nextDelta w.val anchor, 0, 0⟩ ∧
    1 ≤ nextDelta w.val anchor ∧ nextDelta w.val anchor ≤ 7 ∧
    pyWeekday (anchor.od + nextDelta w.val anchor) = w.val ∧
    (pyWeekday anchor.od = w.val → nextDelta w.val anchor = 7) := by
  refine ⟨?_, nextDelta_spec w.val w.isLt anchor⟩
  fin_cases w <;> rfl

/-- Witness for C2 (amended) at a concrete anchor (2025-10-13, a Monday)
and weekday index 0 (Monday). -/
theorem C2_witness :
    parse_natural_date ("next ".toList ++ dayTok 0) ⟨739537, 0, 0⟩ =
      some ⟨739537 + nextDelta (0 : Fin 7).val ⟨739537, 0, 0⟩, 0, 0⟩ ∧
    1 ≤ nextDelta (0 : Fin 7).val ⟨739537, 0, 0⟩ ∧
    nextDelta (0 : Fin 7).val ⟨739537, 0, 0⟩ ≤ 7 ∧
    pyWeekday (739537 + nextDelta (0 : Fin 7).val ⟨739537, 0, 0⟩) = (0 : Fin 7).val ∧
    (pyWeekday 739537 = (0 : Fin 7).val → nextDelta (0 : Fin 7).val ⟨739537, 0, 0⟩ = 7) :=
  C2_next_weekday ⟨739537, 0, 0⟩ 0

/-- C2 is false as stated: on anchor 2025-10-13 (ordinal 739537, a Monday),
`"next mon"` resolves to 2025-10-20, seven days later — not eight; and
`"next fri"` resolves only four days out, not a week or more. -/
theorem C2_counterexample :
    dateToOrdinal 2025 10 13 = 739537 ∧
    pyWeekday 739537 = 0 ∧
    parse_natural_date "next mon".toList ⟨739537, 0, 0⟩ = some ⟨739537 + 7, 0, 0⟩ ∧
    parse_natural_date "next mon".toList ⟨739537, 0, 0⟩ ≠ some ⟨739537 + 8, 0, 0⟩ ∧
    parse_natural_date "next fri".toList ⟨739537, 0, 0⟩ = some ⟨739537 + 4, 0, 0⟩ ∧
    ¬ (7 ≤ 739537 + 4 - 739537) := by decide

/-! ## C7: hours resolution and the closed flag -/

theorem gh_ranges_eq_dayRanges (env : Env) (dt : PyDateTime) :
    (List.lookup (strftime10 dt) env.working.exceptions).getD
      ((List.lookup (WEEKDAY_NAMES.getD (pyWeekday dt.od) []) env.working.weekly_hours).getD []) =
    dayRanges env dt := by
  simp only [dayRanges]
  cases h : List.lookup (strftime10 dt) env.working.exceptions with
  | none => simp [h]
  | some v => simp [h]

/-- C7: `get_hours` and `check_availability` resolve a date's open ranges by
the exception override (even when empty, meaning closed) and otherwise the
weekday's weekly entry, and both report closed exactly when the applicable
range list is empty or absent. -/
theorem C7_hours_resolution (env : Env) (cal : Calendar) (phrase : Str)
    (sn : Option Str) (lim : Nat) (dt : PyDateTime)
    (hne : phrase ≠ [])
    (hdp : extract_daypart phrase = (phrase, none))
    (hp : parse_natural_date phrase env.now = some dt) :
    dayRanges env dt =
      (if (List.lookup (strftime10 dt) env.working.exceptions).isSome then
        (List.lookup (strftime10 dt) env.working.exceptions).getD []
      else (List.lookup (WEEKDAY_NAMES.getD (pyWeekday dt.od) [])
        env.working.weekly_hours).getD []) ∧
    ((get_hours env phrase).closed = some true ↔ dayRanges env dt = []) ∧
    ((get_hours env phrase).closed = some false ↔ dayRanges env dt ≠ []) ∧
    (∃ r, check_availability env cal phrase sn lim none = some r ∧
      (r.closed = true ↔ dayRanges env dt = [])) := by
  have hgh : get_hours env phrase =
      (match parse_natural_date phrase env.now with
      | none => { error := some msgParseErr, date := none, closed := none }
      | some dt =>
        let ds := strftime10 dt
        let wd := WEEKDAY_NAMES.getD (pyWeekday dt.od) []
        let ranges := (List.lookup ds env.working.exceptions).getD
          ((List.lookup wd env.working.weekly_hours).getD [])
        if ranges = [] then
          { date := some ds, weekday := some wd, ranges := [], closed := some true }
        else
          let oc := openClose ranges
          { date := some ds, weekday := some wd, ranges := ranges,
            opening := oc.map Prod.fst, closing := oc.map Prod.snd,
            closed := some false } : GetHoursResult) := by
    simp only [get_hours, if_neg hne]
  refine ⟨?_, ?_, ?_, ?_⟩
  · rfl
  · rw [hgh, hp]
    simp only [gh_ranges_eq_dayRanges]
    by_cases hr : dayRanges env dt = [] <;> simp [hr]
  · rw [hgh, hp]
    simp only [gh_ranges_eq_dayRanges]
    by_cases hr : dayRanges env dt = [] <;> simp [hr]
  · have hclean : cleanedPhrase phrase = phrase := by
      simp only [cleanedPhrase, hdp, if_neg hne]
    have hdpn : dpArg none phrase = none := by
      simp only [dpArg]
      rw [hdp]
    by_cases hr : dayRanges env dt = []
    · have hck : check_availability env cal phrase sn lim none = some { error := none, date := some (strftime10 dt), weekday := some (WEEKDAY_NAMES.getD (pyWeekday dt.od) []), service := none, duration_minutes := none, available := [], total_available := none, closed := true } := by
        simp only [check_availability, hdpn, hclean, hp]
        rw [if_pos hr]
      exact ⟨_, hck, by simp [hr]⟩
    · obtain ⟨free, hfree, _⟩ := availFree_spec env cal dt
        (_get_service_minutes env.services sn) (Or.inl rfl)
      have hck : check_availability env cal phrase sn lim none = some { error := none, date := some (strftime10 dt), weekday := some (WEEKDAY_NAMES.getD (pyWeekday dt.od) []), service := sn, duration_minutes := some (_get_service_minutes env.services sn), available := free.take (max 1 lim), total_available := some free.length, closed := false } := by
        simp only [check_availability, hdpn, hclean, hp]
        rw [if_neg hr, hfree]
        rfl
      exact ⟨_, hck, by simp [hr]⟩

/-- Concrete environment: weekly hours only on Saturday, an exception
closing 2025-10-18, clock at 2025-10-13 (a Monday) 09:00. -/
def envW1 : Env :=
  ⟨⟨15, [("Sat".toList, ["10:00-14:00".toList])], [("2025-10-18".toList, [])]⟩,
   [⟨"Basic Haircut".toList, 30⟩], ⟨739537, 9, 0⟩⟩

/-- Witness for C7: the 2025-10-18 exception override (an empty list)
closes a day whose weekly entry is open. -/
theorem C7_witness :
    dayRanges envW1 ⟨739542, 0, 0⟩ =
      (if (List.lookup (strftime10 ⟨739542, 0, 0⟩) envW1.working.exceptions).isSome then
        (List.lookup (strftime10 ⟨739542, 0, 0⟩) envW1.working.exceptions).getD []
      else (List.lookup (WEEKDAY_NAMES.getD (pyWeekday (739542 : Nat)) [])
        envW1.working.weekly_hours).getD []) ∧
    ((get_hours envW1 "2025-10-18".toList).closed = some true ↔
      dayRanges envW1 ⟨739542, 0, 0⟩ = []) ∧
    ((get_hours envW1 "2025-10-18".toList).closed = some false ↔
      dayRanges envW1 ⟨739542, 0, 0⟩ ≠ []) ∧
    (∃ r, check_availability envW1 [] "2025-10-18".toList none 8 none = some r ∧
      (r.closed = true ↔ dayRanges envW1 ⟨739542, 0, 0⟩ = [])) :=
  C7_hours_resolution envW1 [] "2025-10-18".toList none 8 ⟨739542, 0, 0⟩
    (by decide) (by decide) (by decide)

/-! ## C6: unrecognized date phrases -/

/-- C6 (amended): for every phrase whose daypart-stripped form is nonempty
and unrecognized, `parse_natural_date` returns `none` and
`check_availability` returns the explicit error object with an empty
available list and no date; the empty phrase itself also parses to `none`,
but `check_availability` deliberately substitutes `"today"` for it. -/
theorem C6_unparsed_phrase (env : Env) (cal : Calendar) (phrase : Str)
    (sn : Option Str) (lim : Nat) (daypart : Option (Str × Str))
    (hc : (extract_daypart phrase).1 ≠ [])
    (hp : parse_natural_date (extract_daypart phrase).1 env.now = none) :
    check_availability env cal phrase sn lim daypart =
      some { error := some msgParseErr, available := [], date := none } ∧
    parse_natural_date [] env.now = none := by
  constructor
  · have hclean : cleanedPhrase phrase = (extract_daypart phrase).1 := by
      simp only [cleanedPhrase, if_neg hc]
    simp only [check_availability, hclean, hp]
  · rfl

/-- Witness for C6 (amended) on the unrecognized phrase `"blargh"`. -/
theorem C6_witness :
    check_availability envW1 [] "blargh".toList none 8 none =
      some { error := some msgParseErr, available := [], date := none } ∧
    parse_natural_date [] envW1.now = none :=
  C6_unparsed_phrase envW1 [] "blargh".toList none 8 none (by decide) (by decide)

/-- C6 is false as stated for the empty phrase: `parse_natural_date` does
return `NotParsed` on it, but `check_availability` does not report an
error — it silently resolves the empty phrase to "today" (2025-10-13
here) instead. -/
theorem C6_counterexample :
    parse_natural_date [] ⟨739537, 9, 0⟩ = none ∧
    check_availability envW1 [] [] none 8 none =
      some { date := some "2025-10-13".toList, weekday := some "Mon".toList, available := [], closed := true } := by
  constructor
  · rfl
  · decide

/-! ## Booking-path helper lemmas -/

theorem tm_fmt2_pair (a b : Nat) :
    _time_to_minutes (fmt2 a ++ ':' :: fmt2 b) = some (a * 60 + b) := by
  simp only [_time_to_minutes]
  rw [pySplit_append _ (colon_not_mem_fmt2 a), pySplit_no_sep (colon_not_mem_fmt2 b)]
  simp only [pyIntNat_fmt2]

/-- A successful parse error path of `check_availability`. -/
theorem check_parse_error (env : Env) (cal : Calendar) (phrase : Str)
    (sn : Option Str) (lim : Nat) (daypart : Option (Str × Str))
    (hp : parse_natural_date (cleanedPhrase phrase) env.now = none) :
    check_availability env cal phrase sn lim daypart =
      some { error := some msgParseErr, available := [], date := none } := by
  simp only [check_availability, hp]

/-- Every string `_normalize_time_to_hhmm` returns is a zero-padded
in-range `HH:MM` that `_time_to_minutes` parses back. -/
theorem normalizeIf_shape {H mm0 : Nat} {o : Str}
    (h : (if H ≤ 23 ∧ mm0 ≤ 59 then some (fmt2 H ++ ':' :: fmt2 mm0) else none) = some o) :
    ∃ hh mm, hh ≤ 23 ∧ mm ≤ 59 ∧ o = fmt2 hh ++ ':' :: fmt2 mm ∧
      _time_to_minutes o = some (hh * 60 + mm) := by
  split at h
  next hcond =>
    injection h with h
    exact ⟨H, mm0, hcond.1, hcond.2, h.symm, h ▸ tm_fmt2_pair H mm0⟩
  next => exact absurd h (by simp)

theorem normalizeFinish_shape {ampm : Option Str} {hm : Option (Nat × Nat)} {o : Str}
    (h : normalizeFinish ampm hm = some o) :
    ∃ hh mm, hh ≤ 23 ∧ mm ≤ 59 ∧ o = fmt2 hh ++ ':' :: fmt2 mm ∧
      _time_to_minutes o = some (hh * 60 + mm) := by
  cases hm with
  | none => exact absurd h (by simp [normalizeFinish])
  | some p =>
    obtain ⟨hh0, mm0⟩ := p
    simp only [normalizeFinish] at h
    exact normalizeIf_shape h

/-- Every string `_normalize_time_to_hhmm` returns is a zero-padded
in-range `HH:MM` that `_time_to_minutes` parses back. -/
theorem normalize_shape {s o : Str} (h : _normalize_time_to_hhmm s = some o) :
    ∃ hh mm, hh ≤ 23 ∧ mm ≤ 59 ∧ o = fmt2 hh ++ ':' :: fmt2 mm ∧
      _time_to_minutes o = some (hh * 60 + mm) := by
  by_cases hs : s = []
  · rw [_normalize_time_to_hhmm, if_pos hs] at h
    exact absurd h (by simp)
  · rw [_normalize_time_to_hhmm, if_neg hs] at h
    exact normalizeFinish_shape h

/-- A failing `_append_appointment` on a parseable start time is exactly the
race rejection, and it leaves the calendar unchanged. -/
theorem append_false_race {cal : Calendar} {ds start : Str} {dur : Nat} {m : Str}
    {calA : Calendar} {v : Nat} (hv : _time_to_minutes start = some v)
    (h : _append_appointment cal ds start dur = ((false, m), calA)) :
    m = msgRace ∧ calA = cal := by
  simp only [_append_appointment, hv] at h
  split at h
  · injection h with h1 h2
    injection h1 with _ hm
    exact ⟨hm.symm, h2.symm⟩
  · injection h with h1 _
    injection h1 with hfalse _
    exact absurd hfalse (by simp)

/-! ## C10: booking with an unparseable date -/

/-- C10: when the (daypart-stripped) date cannot be parsed while the start
time is valid, `book_appointment` returns the slot-not-available rejection
with an empty alternatives list and no date — the parse failure is never
surfaced as a parse error or a closed-day rejection — and the calendar is
untouched. -/
theorem C10_unparseable_date (env : Env) (cal : Calendar)
    (date_str start_time : Str) (sn : Option Str) (cn : Str) (stn : Str)
    (hstart : _normalize_time_to_hhmm start_time = some stn)
    (hfail : parse_natural_date (cleanedPhrase
      (if (extract_daypart date_str).1 = [] then date_str
       else (extract_daypart date_str).1)) env.now = none) :
    book_appointment env cal date_str start_time sn cn =
      some ({ success := false, error := some msgSlotNA, alternatives := some [], date := none, service := sn, duration_minutes := some (_get_service_minutes env.services sn) }, cal) := by
  simp only [book_appointment, hstart]
  rw [check_parse_error env cal _ sn 10000 none hfail]
  simp only [Option.some_bind]
  rfl

/-- Witness for C10: booking `"blargh"` at `"9"`. -/
theorem C10_witness :
    book_appointment envW1 [] "blargh".toList "9".toList none "Ann".toList =
      some ({ success := false, error := some msgSlotNA, alternatives := some [], date := none, service := none, duration_minutes := some (_get_service_minutes envW1.services none) }, []) :=
  C10_unparseable_date envW1 [] "blargh".toList "9".toList none "Ann".toList
    "09:00".toList (by decide) (by decide)

/-! ## C5: rejections and alternatives -/

/-- C5 (amended): a `book_appointment` rejection carries an alternatives
list exactly when it is the slot-not-available or the race-detected
rejection; the bad-time-format and closed-day rejections carry none.  The
race rejection's list is recomputed by a fresh `check_availability` after
the failed commit (which left the calendar unchanged). -/
theorem C5_rejection_alternatives (env : Env) (cal : Calendar)
    (d st : Str) (sn : Option Str) (cn : Str) (r : BookResult) (cal2 : Calendar)
    (h : book_appointment env cal d st sn cn = some (r, cal2))
    (hf : r.success = false) :
    (r.alternatives.isSome ↔ (r.error = some msgSlotNA ∨ r.error = some msgRace)) ∧
    (r.error = some msgRace →
      cal2 = cal ∧
      ∃ p fresh, check_availability env cal2 p sn 8 none = some fresh ∧
        r.alternatives = some fresh.available) := by
  simp only [book_appointment] at h
  cases hn : _normalize_time_to_hhmm st with
  | none =>
    rw [hn] at h
    have hpair := Option.some.inj h
    have hr : r = { success := false, error := some msgBadTime } :=
      (congrArg Prod.fst hpair).symm
    subst hr
    refine ⟨by simp; decide, ?_⟩
    intro habs
    simp at habs
    exact absurd habs (by decide)
  | some stn =>
    rw [hn] at h
    cases hch : check_availability env cal
        (if (extract_daypart d).1 = [] then d else (extract_daypart d).1) sn 10000 none with
    | none => rw [hch] at h; exact absurd h (by simp)
    | some avail =>
      rw [hch] at h
      simp only [Option.some_bind] at h
      by_cases hcl : avail.closed = true
      · rw [if_pos hcl] at h
        have hpair := Option.some.inj h
        have hr : r = { success := false, error := some msgClosed } :=
          (congrArg Prod.fst hpair).symm
        subst hr
        refine ⟨by simp; decide, ?_⟩
        intro habs
        simp at habs
        exact absurd habs (by decide)
      · rw [if_neg hcl] at h
        by_cases hmem : stn ∈ avail.available
        · rw [if_pos hmem] at h
          cases happ : _append_appointment cal (avail.date.getD []) stn
              (_get_service_minutes env.services sn) with
          | mk okm calA =>
            obtain ⟨ok, m⟩ := okm
            rw [happ] at h
            cases ok with
            | true =>
              obtain ⟨hh0, mm0, _, _, _, htm⟩ := normalize_shape hn
              rw [htm] at h
              have hpair := Option.some.inj h
              have hr : r = { success := true, message := some msgConfirmed, date := avail.date, start_time := some stn, end_time := some (_minutes_to_time (hh0 * 60 + mm0 + _get_service_minutes env.services sn)), service := sn, duration_minutes := some (_get_service_minutes env.services sn), client_name := some cn } :=
                (congrArg Prod.fst hpair).symm
              rw [hr] at hf
              exact absurd hf (by simp)
            | false =>
              obtain ⟨hh0, mm0, _, _, _, htm⟩ := normalize_shape hn
              obtain ⟨hm, hcala⟩ := append_false_race htm happ
              subst hm
              simp only at h
              cases hfr : check_availability env calA (avail.date.getD []) sn 8 none with
              | none => rw [hfr] at h; exact absurd h (by simp)
              | some fresh =>
                rw [hfr] at h
                have hpair := Option.some.inj h
                have hr : r = { success := false, error := some msgRace, alternatives := some fresh.available, date := avail.date, service := sn, duration_minutes := some (_get_service_minutes env.services sn) } :=
                  (congrArg Prod.fst hpair).symm
                have hcal2 : cal2 = calA := (congrArg Prod.snd hpair).symm
                subst hr
                refine ⟨by simp, ?_⟩
                intro _
                subst hcal2 hcala
                exact ⟨rfl, avail.date.getD [], fresh, hfr, rfl⟩
        · rw [if_neg hmem] at h
          have hpair := Option.some.inj h
          have hr : r = { success := false, error := some msgSlotNA, alternatives := some (avail.available.take 10), date := avail.date, service := sn, duration_minutes := some (_get_service_minutes env.services sn) } :=
            (congrArg Prod.fst hpair).symm
          subst hr
          refine ⟨by simp, ?_⟩
          intro habs
          simp at habs
          exact absurd habs (by decide)

/-- Witness for C5 (amended) at a concrete rejected booking (closed day):
the rejection carries no alternatives and is neither the slot-not-available
nor the race rejection. -/
theorem C5_witness :
    ((BookResult.alternatives { success := false, error := some msgClosed }).isSome ↔
      ({ success := false, error := some msgClosed } : BookResult).error = some msgSlotNA ∨
      ({ success := false, error := some msgClosed } : BookResult).error = some msgRace) ∧
    (({ success := false, error := some msgClosed } : BookResult).error = some msgRace →
      ([] : Calendar) = [] ∧
      ∃ p fresh, check_availability envW1 [] p none 8 none = some fresh ∧
        (BookResult.alternatives { success := false, error := some msgClosed }) = some fresh.available) :=
  C5_rejection_alternatives envW1 [] "2025-10-18".toList "9".toList none "Ann".toList
    { success := false, error := some msgClosed } [] (by decide) (by decide)

/-- C5 is false as stated: a closed-day rejection (2025-10-18 is closed by
exception in `envW1`) carries no alternatives key at all. -/
theorem C5_counterexample :
    book_appointment envW1 [] "2025-10-18".toList "9".toList none "Ann".toList =
      some ({ success := false, error := some msgClosed }, []) ∧
    (BookResult.alternatives { success := false, error := some msgClosed }) = none :=
  ⟨by decide, rfl⟩

/-! ## Calendar infrastructure lemmas -/

theorem getTaken_setCal (cal : Calendar) (k k' : Str) (v : List Str) :
    getTaken (setCal cal k v) k' = if k' = k then v else getTaken cal k' := by
  induction cal with
  | nil =>
    by_cases h : k' = k
    · subst h
      simp [setCal, getTaken, List.lookup]
    · have hb : (k' == k) = false := beq_eq_false_iff_ne.mpr h
      simp [setCal, getTaken, List.lookup, hb, h]
  | cons kv rest ih =>
    obtain ⟨k0, v0⟩ := kv
    by_cases h0 : k0 = k
    · subst h0
      by_cases h : k' = k0
      · subst h
        simp [setCal, getTaken, List.lookup]
      · have hb : (k' == k0) = false := beq_eq_false_iff_ne.mpr h
        simp [setCal, getTaken, List.lookup, hb, h]
    · by_cases h : k' = k0
      · subst h
        have hne : ¬ k' = k := fun e => h0 e
        simp [setCal, if_neg h0, getTaken, List.lookup, hne]
      · have hb : (k' == k0) = false := beq_eq_false_iff_ne.mpr h
        simp only [setCal, if_neg h0, getTaken, List.lookup, hb]
        simp only [getTaken] at ih
        rw [ih]

instance : IsTotal Str sortKeyLE := ⟨fun a b => Nat.le_total _ _⟩

instance : IsTrans Str sortKeyLE := ⟨fun _ _ _ => Nat.le_trans⟩

/-- A successful `_append_appointment` on a parseable start: no stored
conflict existed, and the new calendar holds, at that date, a deduplicated
list sorted by start that contains the new interval string; other dates are
untouched. -/
theorem append_true_facts {cal : Calendar} {ds start : Str} {dur : Nat} {m : Str}
    {calA : Calendar} {sm : Nat} (hv : _time_to_minutes start = some sm)
    (h : _append_appointment cal ds start dur = ((true, m), calA)) :
    slotConflicts (getTaken cal ds) sm dur = false ∧
    ∃ final, calA = setCal cal ds final ∧ final.Nodup ∧
      List.Sorted sortKeyLE final ∧
      (start ++ '-' :: _minutes_to_time (sm + dur)) ∈ final ∧
      ∀ x ∈ final, x ∈ getTaken cal ds ∨ x = start ++ '-' :: _minutes_to_time (sm + dur) := by
  simp only [_append_appointment, hv] at h
  split at h
  next hc =>
    injection h with h1 _
    injection h1 with hfalse _
    exact absurd hfalse.symm (by simp)
  next hc =>
    have hcal : calA = setCal cal ds (List.insertionSort sortKeyLE
        (if start ++ '-' :: _minutes_to_time (sm + dur) ∈ getTaken cal ds
         then getTaken cal ds
         else getTaken cal ds ++ [start ++ '-' :: _minutes_to_time (sm + dur)]).dedup) := by
      injection h with _ h2
      exact h2.symm
    refine ⟨by simpa using hc, _, hcal, ?_, ?_, ?_, ?_⟩
    · exact ((List.perm_insertionSort _ _).nodup_iff).mpr (List.nodup_dedup _)
    · exact List.sorted_insertionSort sortKeyLE _
    · rw [(List.perm_insertionSort _ _).mem_iff, List.mem_dedup]
      split
      next hmem => exact hmem
      next => simp
    · intro x hx
      rw [(List.perm_insertionSort _ _).mem_iff, List.mem_dedup] at hx
      revert hx
      split
      next => exact fun hx => Or.inl hx
      next =>
        intro hx
        rcases List.mem_append.mp hx with hx | hx
        · exact Or.inl hx
        · simp at hx
          exact Or.inr hx

/-- What a `check_availability` result with a nonempty `available` list
says about its inputs: the phrase parsed, the day is open, and the
available list is the capped free-slot pipeline output. -/
theorem check_inversion {env : Env} {cal : Calendar} {p : Str} {sn : Option Str}
    {lim : Nat} {dp : Option (Str × Str)} {avail : CheckResult}
    (h : check_availability env cal p sn lim dp = some avail)
    (hne : avail.available ≠ []) :
    ∃ dt, parse_natural_date (cleanedPhrase p) env.now = some dt ∧
      dayRanges env dt ≠ [] ∧
      avail.date = some (strftime10 dt) ∧ avail.closed = false ∧
      ∃ free, availFree env cal dt (_get_service_minutes env.services sn)
          (dpArg dp p) = some free ∧
        avail.available = free.take (max 1 lim) := by
  simp only [check_availability] at h
  cases hp : parse_natural_date (cleanedPhrase p) env.now with
  | none =>
    rw [hp] at h
    injection h with h
    rw [← h] at hne
    exact absurd rfl hne
  | some dt =>
    rw [hp] at h
    simp only at h
    by_cases hr : dayRanges env dt = []
    · rw [if_pos hr] at h
      injection h with h
      rw [← h] at hne
      exact absurd rfl hne
    · rw [if_neg hr] at h
      cases hfree : availFree env cal dt (_get_service_minutes env.services sn)
          (dpArg dp p) with
      | none =>
        rw [hfree] at h
        exact absurd h (by simp)
      | some free =>
        rw [hfree] at h
        have havail := Option.some.inj h
        refine ⟨dt, rfl, hr, ?_, ?_, free, hfree, ?_⟩ <;> rw [← havail]

/-! ## C3: idempotence of booking -/

/-- C3: after a successful `book_appointment`, repeating the identical call
is rejected as slot-not-available and leaves the calendar untouched; the
stored list for the booked date is duplicate-free and sorted by start time.
The hypothesis `1 ≤ duration` is the data-model invariant that service
durations are positive. -/
theorem C3_idempotent_booking (env : Env) (cal : Calendar) (d st : Str)
    (sn : Option Str) (cn : Str) (r1 : BookResult) (cal1 : Calendar)
    (hdur : 1 ≤ _get_service_minutes env.services sn)
    (h1 : book_appointment env cal d st sn cn = some (r1, cal1))
    (hs : r1.success = true) :
    ∃ r2 ds, r1.date = some ds ∧
      book_appointment env cal1 d st sn cn = some (r2, cal1) ∧
      r2.success = false ∧ r2.error = some msgSlotNA ∧
      (getTaken cal1 ds).Nodup ∧ List.Sorted sortKeyLE (getTaken cal1 ds) := by
  simp only [book_appointment] at h1
  cases hn : _normalize_time_to_hhmm st with
  | none =>
    rw [hn] at h1
    have hpair := Option.some.inj h1
    have hr : r1 = { success := false, error := some msgBadTime } :=
      (congrArg Prod.fst hpair).symm
    rw [hr] at hs
    exact absurd hs (by simp)
  | some stn =>
    rw [hn] at h1
    cases hch : check_availability env cal
        (if (extract_daypart d).1 = [] then d else (extract_daypart d).1) sn 10000 none with
    | none => rw [hch] at h1; exact absurd h1 (by simp)
    | some avail =>
      rw [hch] at h1
      simp only [Option.some_bind] at h1
      by_cases hcl : avail.closed = true
      · rw [if_pos hcl] at h1
        have hpair := Option.some.inj h1
        have hr : r1 = { success := false, error := some msgClosed } :=
          (congrArg Prod.fst hpair).symm
        rw [hr] at hs
        exact absurd hs (by simp)
      · rw [if_neg hcl] at h1
        by_cases hmem : stn ∈ avail.available
        case neg =>
          rw [if_neg hmem] at h1
          have hpair := Option.some.inj h1
          have hr : r1 = { success := false, error := some msgSlotNA, alternatives := some (avail.available.take 10), date := avail.date, service := sn, duration_minutes := some (_get_service_minutes env.services sn) } :=
            (congrArg Prod.fst hpair).symm
          rw [hr] at hs
          exact absurd hs (by simp)
        case pos =>
          rw [if_pos hmem] at h1
          cases happ : _append_appointment cal (avail.date.getD []) stn
              (_get_service_minutes env.services sn) with
          | mk okm calA =>
            obtain ⟨ok, m⟩ := okm
            rw [happ] at h1
            cases ok with
            | false =>
              simp only at h1
              cases hfr : check_availability env calA (avail.date.getD []) sn 8 none with
              | none => rw [hfr] at h1; exact absurd h1 (by simp)
              | some fresh =>
                rw [hfr] at h1
                have hpair := Option.some.inj h1
                have hr : r1 = { success := false, error := some m, alternatives := some fresh.available, date := avail.date, service := sn, duration_minutes := some (_get_service_minutes env.services sn) } :=
                  (congrArg Prod.fst hpair).symm
                rw [hr] at hs
                exact absurd hs (by simp)
            | true =>
              simp only at h1
              obtain ⟨hh0, mm0, _, _, hstn_shape, htm⟩ := normalize_shape hn
              rw [htm] at h1
              have hpair := Option.some.inj h1
              have hr1eq : r1 = { success := true, message := some msgConfirmed, date := avail.date, start_time := some stn, end_time := some (_minutes_to_time (hh0 * 60 + mm0 + _get_service_minutes env.services sn)), service := sn, duration_minutes := some (_get_service_minutes env.services sn), client_name := some cn } :=
                (congrArg Prod.fst hpair).symm
              have hcal1 : cal1 = calA := (congrArg Prod.snd hpair).symm
              have hina : avail.available ≠ [] := by
                intro he
                rw [he] at hmem
                exact absurd hmem (by simp)
              obtain ⟨dt, hp, hrg, hdate, _, free1, hfree1, havl⟩ := check_inversion hch hina
              have hdgd : avail.date.getD [] = strftime10 dt := by rw [hdate]; rfl
              rw [hdgd] at happ
              obtain ⟨hnoconf, final, hsetc, hnodup, hsorted, hmemf, _⟩ :=
                append_true_facts htm happ
              have hget1 : getTaken cal1 (strftime10 dt) = final := by
                rw [hcal1, hsetc, getTaken_setCal]
                simp
              have hnew_parse : parseRange (stn ++ '-' :: _minutes_to_time
                  (hh0 * 60 + mm0 + _get_service_minutes env.services sn)) =
                  some (hh0 * 60 + mm0, hh0 * 60 + mm0 + _get_service_minutes env.services sn) :=
                parseRange_build htm _
              have hconf2 : slotConflicts (getTaken cal1 (strftime10 dt))
                  (hh0 * 60 + mm0) (_get_service_minutes env.services sn) = true := by
                apply slotConflicts_iff.mpr
                refine ⟨_, ?_, hh0 * 60 + mm0,
                  hh0 * 60 + mm0 + _get_service_minutes env.services sn, hnew_parse, ?_⟩
                · rw [hget1]
                  exact hmemf
                · simp only [pyOverlap, Bool.and_eq_true, decide_eq_true_eq]
                  omega
              obtain ⟨free2, hfree2, hfree2mem⟩ := @availFree_spec env cal1 dt
                (_get_service_minutes env.services sn)
                (dpArg none (if (extract_daypart d).1 = [] then d
                  else (extract_daypart d).1))
                (Or.inr ⟨(if (extract_daypart d).1 = [] then d
                  else (extract_daypart d).1), rfl⟩)
              have hstn_notin : stn ∉ free2 := by
                intro hsin
                obtain ⟨_, hnc⟩ := hfree2mem stn hsin
                rw [htm] at hnc
                simp only [Option.getD_some] at hnc
                rw [hconf2] at hnc
                exact absurd hnc (by simp)
              have hnotin_take : stn ∉ free2.take (max 1 10000) := fun hin =>
                hstn_notin (List.mem_of_mem_take hin)
              have hck2 : check_availability env cal1
                  (if (extract_daypart d).1 = [] then d else (extract_daypart d).1)
                  sn 10000 none =
                  some { error := none, date := some (strftime10 dt), weekday := some (WEEKDAY_NAMES.getD (pyWeekday dt.od) []), service := sn, duration_minutes := some (_get_service_minutes env.services sn), available := free2.take (max 1 10000), total_available := some free2.length, closed := false } := by
                simp only [check_availability, hp]
                rw [if_neg hrg, hfree2]
                rfl
              have hbook2 : book_appointment env cal1 d st sn cn =
                  some ({ success := false, error := some msgSlotNA, alternatives := some ((free2.take (max 1 10000)).take 10), date := some (strftime10 dt), service := sn, duration_minutes := some (_get_service_minutes env.services sn) }, cal1) := by
                simp only [book_appointment, hn, hck2, Option.some_bind]
                rw [if_neg (by simp), if_neg hnotin_take]
              refine ⟨_, strftime10 dt, ?_, hbook2, rfl, rfl, ?_, ?_⟩
              · rw [hr1eq]
                exact hdate
              · rw [hget1]
                exact hnodup
              · rw [hget1]
                exact hsorted

/-- Environment with Saturday 10:00–14:00 open, no exceptions, clock at
2025-10-13 (Monday) 09:00. -/
def envW2 : Env :=
  ⟨⟨15, [("Sat".toList, ["10:00-14:00".toList])], []⟩,
   [⟨"Basic Haircut".toList, 30⟩], ⟨739537, 9, 0⟩⟩

/-- The result of the first (successful) booking in the C3 witness. -/
def r1W : BookResult :=
  { success := true, message := some msgConfirmed, date := some "2025-10-18".toList, start_time := some "10:30".toList, end_time := some "11:00".toList, service := some "Basic Haircut".toList, duration_minutes := some 30, client_name := some "Ann".toList }

/-- The calendar after the first booking in the C3 witness. -/
def cal1W : Calendar := [("2025-10-18".toList, ["10:30-11:00".toList])]

/-- Witness for C3: booking Saturday 10:30 twice from an empty calendar. -/
theorem C3_witness :
    ∃ r2 ds, r1W.date = some ds ∧
      book_appointment envW2 cal1W "2025-10-18".toList "10:30".toList
        (some "Basic Haircut".toList) "Ann".toList = some (r2, cal1W) ∧
      r2.success = false ∧ r2.error = some msgSlotNA ∧
      (getTaken cal1W ds).Nodup ∧ List.Sorted sortKeyLE (getTaken cal1W ds) :=
  C3_idempotent_booking envW2 [] "2025-10-18".toList "10:30".toList
    (some "Basic Haircut".toList) "Ann".toList r1W cal1W
    (by decide) (by decide) (by decide)

/-! ## C1: the overlap invariant -/

/-- Two stored interval strings do not overlap (under the half-open test)
whenever both parse. -/
def noOv (a b : Str) : Prop :=
  ∀ s1 e1 s2 e2, parseRange a = some (s1, e1) → parseRange b = some (s2, e2) →
    ¬ (s1 < e2 ∧ e1 > s2)

/-- A date's stored interval list is pairwise non-overlapping. -/
def rangesOk (l : List Str) : Prop := l.Pairwise noOv

/-- The calendar-wide overlap invariant of the spec (§3). -/
def CalInvariant (cal : Calendar) : Prop := ∀ ds, rangesOk (getTaken cal ds)

theorem noOv_symm {a b : Str} (h : noOv a b) : noOv b a := by
  intro s1 e1 s2 e2 hpb hpa hov
  exact h s2 e2 s1 e1 hpa hpb ⟨hov.2, hov.1⟩

theorem append_preserves (cal : Calendar) (ds start : Str) (dur : Nat)
    (h : CalInvariant cal) :
    CalInvariant (_append_appointment cal ds start dur).2 := by
  simp only [_append_appointment]
  cases hv : _time_to_minutes start with
  | none => exact h
  | some sm =>
    simp only
    by_cases hc : slotConflicts (getTaken cal ds) sm dur = true
    · intro ds'
      rw [if_pos hc]
      exact h ds'
    · have hfinal : CalInvariant (setCal cal ds (List.insertionSort sortKeyLE
          (if start ++ '-' :: _minutes_to_time (sm + dur) ∈ getTaken cal ds
           then getTaken cal ds
           else getTaken cal ds ++ [start ++ '-' :: _minutes_to_time (sm + dur)]).dedup)) := by
        intro ds'
        rw [getTaken_setCal]
        split
        next heq =>
          have hnew : ∀ a ∈ getTaken cal ds,
              noOv a (start ++ '-' :: _minutes_to_time (sm + dur)) := by
            intro a ha s1 e1 s2 e2 hpa hpnew hov
            rw [parseRange_build hv (sm + dur)] at hpnew
            have hs2 : s2 = sm := by injection hpnew with hp; injection hp with hp1 _; exact hp1.symm
            have he2 : e2 = sm + dur := by injection hpnew with hp; injection hp with _ hp2; exact hp2.symm
            subst hs2 he2
            apply hc
            apply slotConflicts_iff.mpr
            refine ⟨a, ha, s1, e1, hpa, ?_⟩
            simp only [pyOverlap, Bool.and_eq_true, decide_eq_true_eq]
            omega
          have hp2 : rangesOk (if start ++ '-' :: _minutes_to_time (sm + dur) ∈ getTaken cal ds
              then getTaken cal ds
              else getTaken cal ds ++ [start ++ '-' :: _minutes_to_time (sm + dur)]) := by
            split
            · exact h ds
            · apply List.pairwise_append.mpr
              refine ⟨h ds, List.pairwise_singleton _ _, ?_⟩
              intro a ha b hb
              have hb' : b = start ++ '-' :: _minutes_to_time (sm + dur) := by simpa using hb
              subst hb'
              exact hnew a ha
          exact (List.Perm.pairwise_iff (fun hxy => noOv_symm hxy)
            (List.perm_insertionSort _ _)).mpr
            (List.Pairwise.sublist (List.dedup_sublist _) hp2)
        next => exact h ds'
      intro ds'
      rw [if_neg hc]
      exact hfinal ds'

theorem book_preserves (env : Env) (cal : Calendar) (d st : Str)
    (sn : Option Str) (cn : Str) (h : CalInvariant cal) :
    ∀ r cal2, book_appointment env cal d st sn cn = some (r, cal2) →
      CalInvariant cal2 := by
  intro r cal2 hb
  simp only [book_appointment] at hb
  cases hn : _normalize_time_to_hhmm st with
  | none =>
    rw [hn] at hb
    have hc2 : cal2 = cal := (congrArg Prod.snd (Option.some.inj hb)).symm
    rw [hc2]
    exact h
  | some stn =>
    rw [hn] at hb
    cases hch : check_availability env cal
        (if (extract_daypart d).1 = [] then d else (extract_daypart d).1) sn 10000 none with
    | none => rw [hch] at hb; exact absurd hb (by simp)
    | some avail =>
      rw [hch] at hb
      simp only [Option.some_bind] at hb
      by_cases hcl : avail.closed = true
      · rw [if_pos hcl] at hb
        have hc2 : cal2 = cal := (congrArg Prod.snd (Option.some.inj hb)).symm
        rw [hc2]
        exact h
      · rw [if_neg hcl] at hb
        by_cases hmem : stn ∈ avail.available
        case neg =>
          rw [if_neg hmem] at hb
          have hc2 : cal2 = cal := (congrArg Prod.snd (Option.some.inj hb)).symm
          rw [hc2]
          exact h
        case pos =>
          rw [if_pos hmem] at hb
          cases happ : _append_appointment cal (avail.date.getD []) stn
              (_get_service_minutes env.services sn) with
          | mk okm calA =>
            obtain ⟨ok, m⟩ := okm
            rw [happ] at hb
            have hA : CalInvariant calA := by
              have := append_preserves cal (avail.date.getD []) stn
                (_get_service_minutes env.services sn) h
              rw [happ] at this
              exact this
            cases ok with
            | true =>
              simp only at hb
              cases htm : _time_to_minutes stn with
              | none => rw [htm] at hb; exact absurd hb (by simp)
              | some sm =>
                rw [htm] at hb
                have hc2 : cal2 = calA := (congrArg Prod.snd (Option.some.inj hb)).symm
                rw [hc2]
                exact hA
            | false =>
              simp only at hb
              cases hfr : check_availability env calA (avail.date.getD []) sn 8 none with
              | none => rw [hfr] at hb; exact absurd hb (by simp)
              | some fresh =>
                rw [hfr] at hb
                have hc2 : cal2 = calA := (congrArg Prod.snd (Option.some.inj hb)).symm
                rw [hc2]
                exact hA

/-- C1: starting from a calendar satisfying the half-open overlap
invariant, any sequence of sequential `book_appointment` calls (in
particular every successful booking, which commits via
`_append_appointment`) preserves it: no two parseable stored intervals of
any date ever satisfy `s1 < e2 ∧ e1 > s2`. -/
theorem C1_overlap_invariant (env : Env) (reqs : List BookReq) (cal : Calendar)
    (h : CalInvariant cal) : CalInvariant (runBookings env reqs cal) := by
  induction reqs generalizing cal with
  | nil => exact h
  | cons q rest ih =>
    rw [runBookings]
    apply ih
    cases hb : book_appointment env cal q.date_str q.start_time q.service_name
        q.client_name with
    | none => exact h
    | some rc =>
      obtain ⟨r, c⟩ := rc
      exact book_preserves env cal q.date_str q.start_time q.service_name
        q.client_name h r c hb

/-- Witness for C1: one booking from the empty calendar. -/
theorem C1_witness :
    CalInvariant (runBookings envW2
      [⟨"2025-10-18".toList, "10:30".toList, some "Basic Haircut".toList, "Ann".toList⟩]
      []) :=
  C1_overlap_invariant envW2 _ [] (fun _ => List.Pairwise.nil)
